import Mathlib

/-!
# Verification of the qborsh encoding engine

This development embeds the qborsh Borsh codec (the Python type-descriptor
layer `qborsh/types/*.py` on top of the native buffer engine) and proves the
testable properties of its specification.

Modelling conventions:

* Bytes are `Nat` values below 256; byte strings are `List Nat`.
* The native buffer engine (`qborsh.csrc.Buffer`) is not part of the Python
  sources; its primitives (`write_u*`, `read_u*`, `write_vec`, `read_vec`,
  `write_hashset`, `write_hashmap`, ...) are modelled from the spec, §4.1.
  Every write appends at the end of the buffer, so a serializer is modelled
  as a function producing the byte string it writes, and a deserializer as a
  function consuming a byte-string prefix and returning the unread tail.
  Validation (range checks) is modelled as enabled, the default configuration.
* Python values are modelled by the inductive `PyVal`.  Python floats are
  modelled by their IEEE-754 bit patterns at the width of the descriptor that
  consumes them (a value in the valid domain of F32 is an exactly
  f32-representable float, modelled by its 32-bit pattern).  Python strings
  are modelled as lists of unicode scalar values; `bytes` as byte lists;
  `set` and `dict` by their iteration-order element / pair lists.
* Python `==` is modelled by `pyEq` below, including the numeric cross-type
  equalities (`True == 1`, `0.0 == 0`) that the code's input checks rely on.
-/

/-- Model of a Python runtime value as seen by the qborsh serializers.
Floats are carried as IEEE-754 bit patterns; strings as unicode scalar
value lists; sets and dicts as their iteration-order contents. -/
inductive PyVal where
  | none
  | bool (b : Bool)
  | int (z : Int)
  | f32 (bits : Nat)
  | f64 (bits : Nat)
  | str (cs : List Nat)
  | bytes (bs : List Nat)
  | list (xs : List PyVal)
  | set (xs : List PyVal)
  | dict (kvs : List (PyVal × PyVal))
deriving Repr

/-- Errors raised by the codec, following the spec's taxonomy (§7).
`valueErrorMissing` / `valueErrorExtra` are the two `ValueError`s of strict
Record validation; they carry the offending keys. -/
inductive Err where
  | typeError
  | rangeError
  | valueError
  | valueErrorMissing (keys : List (List Nat))
  | valueErrorExtra (keys : List PyVal)
  | truncatedInput
  | keyError
deriving Repr

/-! ## Little-endian byte primitives

Modelled from the spec: the Buffer's fixed-width primitives write the
little-endian encoding of a value and the reads are their inverses,
failing with `TruncatedInputError` when too few bytes remain (§4.1). -/

/-- Little-endian byte string of `n`, `w` bytes long (low byte first). -/
def leBytes : Nat → Nat → List Nat
  | 0, _ => []
  | w + 1, n => n % 256 :: leBytes w (n / 256)

/-- Decode a little-endian byte string back to the natural number it encodes. -/
def leDecode (bs : List Nat) : Nat := bs.foldr (fun b acc => b + 256 * acc) 0

/-- Modelled from the spec: a fixed-width read takes `w` bytes off the front
of the unread input, failing with `TruncatedInputError` when fewer remain. -/
def readN (w : Nat) (input : List Nat) : Except Err (List Nat × List Nat) :=
  if input.length < w then .error .truncatedInput
  else .ok (input.take w, input.drop w)

theorem length_leBytes (w n : Nat) : (leBytes w n).length = w := by
  induction w generalizing n with
  | zero => rfl
  | succ w ih => simp [leBytes, ih]

theorem leDecode_leBytes {w n : Nat} (h : n < 256 ^ w) :
    leDecode (leBytes w n) = n := by
  induction w generalizing n with
  | zero => simp at h; simp [leBytes, leDecode, h]
  | succ w ih =>
    have hd : n / 256 < 256 ^ w := by
      rw [Nat.div_lt_iff_lt_mul (by norm_num)]
      calc n < 256 ^ (w + 1) := h
        _ = 256 ^ w * 256 := by ring
    have := ih hd
    simp only [leBytes, leDecode, List.foldr] at this ⊢
    omega

theorem readN_exact {w : Nat} {bs rest : List Nat} (h : bs.length = w) :
    readN w (bs ++ rest) = .ok (bs, rest) := by
  subst h
  simp [readN, List.take_left, List.drop_left]

theorem readN_ok_iff {w : Nat} {input out rest : List Nat}
    (h : readN w input = .ok (out, rest)) :
    out = input.take w ∧ rest = input.drop w ∧ w ≤ input.length := by
  by_cases hl : input.length < w <;> simp [readN, hl] at h
  exact ⟨h.1.symm, h.2.symm, by omega⟩

/-- Modelled from the spec: `write_vec` writes a 4-byte unsigned LE length
followed by the raw bytes; with validation enabled a length that does not
fit in a u32 is a range violation (§4.1). -/
def writeVec (bs : List Nat) : Except Err (List Nat) :=
  if bs.length < 256 ^ 4 then .ok (leBytes 4 bs.length ++ bs)
  else .error .rangeError

/-- Modelled from the spec: `read_vec` reads the 4-byte length then that many
raw bytes, failing with `TruncatedInputError` if insufficient bytes remain. -/
def readVec (input : List Nat) : Except Err (List Nat × List Nat) :=
  match readN 4 input with
  | .ok (lb, r) => readN (leDecode lb) r
  | .error e => .error e

theorem writeVec_length_ok {bs : List Nat} (h : bs.length < 256 ^ 4) :
    writeVec bs = .ok (leBytes 4 bs.length ++ bs) := by
  unfold writeVec
  rw [if_pos h]

theorem readVec_writeVec {bs ws rest : List Nat} (h : writeVec bs = .ok ws) :
    readVec (ws ++ rest) = .ok (bs, rest) := by
  unfold writeVec at h
  split at h
  next hl =>
    cases h
    rw [List.append_assoc]
    unfold readVec
    rw [readN_exact (length_leBytes 4 bs.length)]
    dsimp only
    rw [leDecode_leBytes hl, readN_exact rfl]
  next => cases h

/-- Modelled from the spec: `write_bool` writes a single byte 0 or 1. -/
def writeBool (b : Bool) : List Nat := [if b then 1 else 0]

/-- Modelled from the spec: `read_bool` reads one byte; a nonzero byte reads
back as true. -/
def readBool (input : List Nat) : Except Err (Bool × List Nat) :=
  match readN 1 input with
  | .ok (bs, r) => .ok (decide (bs.headD 0 ≠ 0), r)
  | .error e => .error e

theorem readBool_writeBool (b : Bool) (rest : List Nat) :
    readBool (writeBool b ++ rest) = .ok (b, rest) := by
  cases b
  · show readBool ([0] ++ rest) = .ok (false, rest)
    unfold readBool
    rw [@readN_exact 1 [0] rest rfl]
    rfl
  · show readBool ([1] ++ rest) = .ok (true, rest)
    unfold readBool
    rw [@readN_exact 1 [1] rest rfl]
    rfl

/-! ## Two's-complement signed integers

Modelled from the spec: signed integers are written as n-bit little-endian
two's complement (§6); with validation enabled an out-of-range value fails
with `RangeError` before writing (§4.1). -/

/-- Two's-complement representative of `z` in `w` bytes (for in-range `z`). -/
def toTwos (w : Nat) (z : Int) : Nat :=
  if z < 0 then (z + 256 ^ w).toNat else z.toNat

/-- Signed reading of a `w`-byte little-endian magnitude. -/
def fromTwos (w : Nat) (m : Nat) : Int :=
  if m < 256 ^ w / 2 then (m : Int) else (m : Int) - 256 ^ w

theorem pow256_div2_mul2 (w : Nat) (hw : 1 ≤ w) : 256 ^ w / 2 * 2 = 256 ^ w := by
  apply Nat.div_mul_cancel
  calc (2 : Nat) ∣ 256 := by norm_num
    _ ∣ 256 ^ w := dvd_pow_self 256 (by omega)

theorem toTwos_lt {w : Nat} {z : Int} (hw : 1 ≤ w)
    (h1 : -((256 ^ w / 2 : Nat) : Int) ≤ z) (h2 : z < ((256 ^ w / 2 : Nat) : Int)) :
    toTwos w z < 256 ^ w := by
  have he := pow256_div2_mul2 w hw
  have hpow : ((256 ^ w : Nat) : Int) = (256 : Int) ^ w := by push_cast; ring
  unfold toTwos
  split <;> omega

theorem fromTwos_toTwos {w : Nat} {z : Int} (hw : 1 ≤ w)
    (h1 : -((256 ^ w / 2 : Nat) : Int) ≤ z) (h2 : z < ((256 ^ w / 2 : Nat) : Int)) :
    fromTwos w (toTwos w z) = z := by
  have he := pow256_div2_mul2 w hw
  have hpow : ((256 ^ w : Nat) : Int) = (256 : Int) ^ w := by push_cast; ring
  unfold toTwos fromTwos
  split <;> split <;> omega

/-! ## UTF-8

The String descriptor UTF-8-encodes its input before `write_vec` and decodes
after `read_vec` (§4.2). Strings are modelled as lists of unicode scalar
values; the encoder and the (strict, overlong- and surrogate-rejecting)
decoder are given explicitly. -/

/-- Valid unicode scalar value: below 0x110000 and not a surrogate. -/
def validCodepoint (c : Nat) : Bool :=
  decide (c < 0x110000) && !(decide (0xD800 ≤ c) && decide (c < 0xE000))

/-- UTF-8 encoding of one unicode scalar value. -/
def utf8EncodeChar (c : Nat) : List Nat :=
  if c < 0x80 then [c]
  else if c < 0x800 then [0xC0 + c / 64, 0x80 + c % 64]
  else if c < 0x10000 then [0xE0 + c / 4096, 0x80 + c / 64 % 64, 0x80 + c % 64]
  else [0xF0 + c / 262144, 0x80 + c / 4096 % 64, 0x80 + c / 64 % 64, 0x80 + c % 64]

/-- UTF-8 encoding of a string (list of unicode scalar values). -/
def utf8Encode : List Nat → List Nat
  | [] => []
  | c :: cs => utf8EncodeChar c ++ utf8Encode cs

/-- Continuation-byte test. -/
abbrev utf8Cont (b : Nat) : Prop := 0x80 ≤ b ∧ b < 0xC0

/-- Strict UTF-8 decoding of one scalar value off the front of a byte string,
rejecting stray continuation bytes, overlong forms and surrogates. -/
def utf8DecodeChar : List Nat → Option (Nat × List Nat)
  | [] => Option.none
  | b0 :: rest =>
    if b0 < 0x80 then some (b0, rest)
    else if b0 < 0xC2 then Option.none
    else if b0 < 0xE0 then
      match rest with
      | b1 :: r => if utf8Cont b1 then some ((b0 - 0xC0) * 64 + (b1 - 0x80), r) else Option.none
      | [] => Option.none
    else if b0 < 0xF0 then
      match rest with
      | b1 :: b2 :: r =>
        if utf8Cont b1 ∧ utf8Cont b2 then
          if (b0 - 0xE0) * 4096 + (b1 - 0x80) * 64 + (b2 - 0x80) < 0x800 ∨
             (0xD800 ≤ (b0 - 0xE0) * 4096 + (b1 - 0x80) * 64 + (b2 - 0x80) ∧
              (b0 - 0xE0) * 4096 + (b1 - 0x80) * 64 + (b2 - 0x80) < 0xE000) then Option.none
          else some ((b0 - 0xE0) * 4096 + (b1 - 0x80) * 64 + (b2 - 0x80), r)
        else Option.none
      | _ => Option.none
    else if b0 < 0xF5 then
      match rest with
      | b1 :: b2 :: b3 :: r =>
        if utf8Cont b1 ∧ utf8Cont b2 ∧ utf8Cont b3 then
          if (b0 - 0xF0) * 262144 + (b1 - 0x80) * 4096 + (b2 - 0x80) * 64 + (b3 - 0x80) < 0x10000 ∨
             0x110000 ≤ (b0 - 0xF0) * 262144 + (b1 - 0x80) * 4096 + (b2 - 0x80) * 64 + (b3 - 0x80)
          then Option.none
          else some ((b0 - 0xF0) * 262144 + (b1 - 0x80) * 4096 + (b2 - 0x80) * 64 + (b3 - 0x80), r)
        else Option.none
      | _ => Option.none
    else Option.none

theorem utf8EncodeChar_length_pos (c : Nat) : 1 ≤ (utf8EncodeChar c).length := by
  unfold utf8EncodeChar
  split
  · simp
  · split
    · simp
    · split <;> simp

theorem utf8DecodeChar_encode {c : Nat} (h : validCodepoint c = true) (rest : List Nat) :
    utf8DecodeChar (utf8EncodeChar c ++ rest) = some (c, rest) := by
  simp only [validCodepoint, Bool.and_eq_true, Bool.not_eq_true', Bool.and_eq_false_iff,
    decide_eq_true_eq, decide_eq_false_iff_not, not_le, not_lt] at h
  by_cases h1 : c < 0x80
  · have he : utf8EncodeChar c = [c] := by unfold utf8EncodeChar; rw [if_pos h1]
    rw [he]
    show utf8DecodeChar (c :: rest) = some (c, rest)
    simp only [utf8DecodeChar]
    rw [if_pos h1]
  · by_cases h2 : c < 0x800
    · have he : utf8EncodeChar c = [0xC0 + c / 64, 0x80 + c % 64] := by
        unfold utf8EncodeChar; rw [if_neg h1, if_pos h2]
      rw [he]
      show utf8DecodeChar ((0xC0 + c / 64) :: (0x80 + c % 64) :: rest) = some (c, rest)
      simp only [utf8DecodeChar]
      rw [if_neg (by omega), if_neg (by omega), if_pos (by omega),
        if_pos (show utf8Cont (0x80 + c % 64) by constructor <;> omega)]
      have hc : (0xC0 + c / 64 - 0xC0) * 64 + (0x80 + c % 64 - 0x80) = c := by omega
      rw [hc]
    · by_cases h3 : c < 0x10000
      · have he : utf8EncodeChar c = [0xE0 + c / 4096, 0x80 + c / 64 % 64, 0x80 + c % 64] := by
          unfold utf8EncodeChar; rw [if_neg h1, if_neg h2, if_pos h3]
        have hsur : c < 0xD800 ∨ 0xE000 ≤ c := by
          rcases h with ⟨hlt, hs⟩; omega
        have hdd : c / 4096 = c / 64 / 64 := by rw [Nat.div_div_eq_div_mul]
        rw [he]
        show utf8DecodeChar
            ((0xE0 + c / 4096) :: (0x80 + c / 64 % 64) :: (0x80 + c % 64) :: rest) =
          some (c, rest)
        simp only [utf8DecodeChar]
        rw [if_neg (by omega), if_neg (by omega), if_neg (by omega), if_pos (by omega),
          if_pos (show utf8Cont _ ∧ utf8Cont _ by refine ⟨⟨?_, ?_⟩, ?_, ?_⟩ <;> omega)]
        have hc : (0xE0 + c / 4096 - 0xE0) * 4096 + (0x80 + c / 64 % 64 - 0x80) * 64 +
            (0x80 + c % 64 - 0x80) = c := by omega
        rw [hc]
        rw [if_neg (by omega)]
      · have h4 : c < 0x110000 := h.1
        have he : utf8EncodeChar c =
            [0xF0 + c / 262144, 0x80 + c / 4096 % 64, 0x80 + c / 64 % 64, 0x80 + c % 64] := by
          unfold utf8EncodeChar; rw [if_neg h1, if_neg h2, if_neg h3]
        have hdd : c / 4096 = c / 64 / 64 := by rw [Nat.div_div_eq_div_mul]
        have hdd2 : c / 262144 = c / 4096 / 64 := by rw [Nat.div_div_eq_div_mul]
        rw [he]
        show utf8DecodeChar ((0xF0 + c / 262144) :: (0x80 + c / 4096 % 64) ::
            (0x80 + c / 64 % 64) :: (0x80 + c % 64) :: rest) = some (c, rest)
        simp only [utf8DecodeChar]
        rw [if_neg (by omega), if_neg (by omega), if_neg (by omega), if_neg (by omega),
          if_pos (by omega),
          if_pos (show utf8Cont _ ∧ utf8Cont _ ∧ utf8Cont _ by
            refine ⟨⟨?_, ?_⟩, ⟨?_, ?_⟩, ?_, ?_⟩ <;> omega)]
        have hc : (0xF0 + c / 262144 - 0xF0) * 262144 + (0x80 + c / 4096 % 64 - 0x80) * 4096 +
            (0x80 + c / 64 % 64 - 0x80) * 64 + (0x80 + c % 64 - 0x80) = c := by omega
        rw [hc]
        rw [if_neg (by omega)]

/-- Fuel-driven strict UTF-8 decoding of a whole byte string. -/
def utf8DecodeAux : Nat → List Nat → Option (List Nat)
  | _, [] => some []
  | 0, _ :: _ => Option.none
  | fuel + 1, l =>
    match utf8DecodeChar l with
    | some (c, r) =>
      match utf8DecodeAux fuel r with
      | some cs => some (c :: cs)
      | Option.none => Option.none
    | Option.none => Option.none

/-- Strict UTF-8 decoding of a whole byte string (Python `bytes.decode`). -/
def utf8Decode (l : List Nat) : Option (List Nat) := utf8DecodeAux l.length l

theorem utf8DecodeAux_encode {cs : List Nat} (h : cs.all validCodepoint = true) :
    ∀ fuel, (utf8Encode cs).length ≤ fuel → utf8DecodeAux fuel (utf8Encode cs) = some cs := by
  induction cs with
  | nil => intro fuel _; cases fuel <;> rfl
  | cons c cs ih =>
    simp only [List.all_cons, Bool.and_eq_true] at h
    intro fuel hf
    have hlen : 1 ≤ (utf8EncodeChar c).length := utf8EncodeChar_length_pos c
    have hne : utf8Encode (c :: cs) = utf8EncodeChar c ++ utf8Encode cs := rfl
    rw [hne] at hf ⊢
    have hlen2 : (utf8EncodeChar c ++ utf8Encode cs).length =
        (utf8EncodeChar c).length + (utf8Encode cs).length := List.length_append _ _
    obtain ⟨f, rfl⟩ : ∃ f, fuel = f + 1 := ⟨fuel - 1, by omega⟩
    have hex : ∃ b0 t, utf8EncodeChar c ++ utf8Encode cs = b0 :: t := by
      cases hc : utf8EncodeChar c with
      | nil => rw [hc] at hlen; simp at hlen
      | cons b0 t => exact ⟨b0, t ++ utf8Encode cs, by simp [hc]⟩
    obtain ⟨b0, t, heq⟩ := hex
    rw [heq]
    show (match utf8DecodeChar (b0 :: t) with
      | some (c', r) =>
        match utf8DecodeAux f r with
        | some cs' => some (c' :: cs')
        | Option.none => Option.none
      | Option.none => Option.none) = some (c :: cs)
    rw [← heq, utf8DecodeChar_encode h.1]
    dsimp only
    rw [ih h.2 f (by omega)]

theorem utf8Decode_encode {cs : List Nat} (h : cs.all validCodepoint = true) :
    utf8Decode (utf8Encode cs) = some cs :=
  utf8DecodeAux_encode h _ le_rfl

theorem utf8Encode_append (a b : List Nat) :
    utf8Encode (a ++ b) = utf8Encode a ++ utf8Encode b := by
  induction a with
  | nil => rfl
  | cons c cs ih => simp [utf8Encode, ih]

/-! ## Unsigned lexicographic order on byte strings and canonical sorting

Map and Set entries are sorted by the unsigned lexicographic order of their
serialized key/element bytes before being written (§4.3). -/

/-- Unsigned lexicographic comparison of byte strings (shorter strict
prefixes sort first). -/
def bytesLe : List Nat → List Nat → Bool
  | [], _ => true
  | _ :: _, [] => false
  | a :: as, b :: bs => if a < b then true else if b < a then false else bytesLe as bs

theorem bytesLe_refl (a : List Nat) : bytesLe a a = true := by
  induction a with
  | nil => rfl
  | cons x xs ih => simp [bytesLe, ih]

theorem bytesLe_total (a b : List Nat) : bytesLe a b = true ∨ bytesLe b a = true := by
  induction a generalizing b with
  | nil => left; rfl
  | cons x xs ih =>
    cases b with
    | nil => right; rfl
    | cons y ys =>
      rcases Nat.lt_trichotomy x y with h | h | h
      · left; simp [bytesLe, h]
      · subst h
        simp only [bytesLe, if_neg (lt_irrefl x)]
        exact ih ys
      · right; simp [bytesLe, h]

theorem bytesLe_antisymm {a b : List Nat} (h1 : bytesLe a b = true)
    (h2 : bytesLe b a = true) : a = b := by
  induction a generalizing b with
  | nil =>
    cases b with
    | nil => rfl
    | cons y ys => simp [bytesLe] at h2
  | cons x xs ih =>
    cases b with
    | nil => simp [bytesLe] at h1
    | cons y ys =>
      rcases Nat.lt_trichotomy x y with h | h | h
      · rw [bytesLe, if_neg (show ¬ y < x by omega), if_pos h] at h2
        simp at h2
      · subst h
        simp only [bytesLe, if_neg (lt_irrefl x)] at h1 h2
        rw [ih h1 h2]
      · rw [bytesLe, if_neg (show ¬ x < y by omega), if_pos h] at h1
        simp at h1

theorem bytesLe_trans {a b c : List Nat} (h1 : bytesLe a b = true)
    (h2 : bytesLe b c = true) : bytesLe a c = true := by
  induction a generalizing b c with
  | nil => rfl
  | cons x xs ih =>
    cases b with
    | nil => simp [bytesLe] at h1
    | cons y ys =>
      cases c with
      | nil => simp [bytesLe] at h2
      | cons z zs =>
        rcases Nat.lt_trichotomy x y with hxy | hxy | hxy
        · rcases Nat.lt_trichotomy y z with hyz | hyz | hyz
          · simp [bytesLe, show x < z by omega]
          · subst hyz; simp [bytesLe, hxy]
          · rw [bytesLe, if_neg (show ¬ y < z by omega), if_pos hyz] at h2
            simp at h2
        · subst hxy
          rcases Nat.lt_trichotomy x z with hyz | hyz | hyz
          · simp [bytesLe, hyz]
          · subst hyz
            simp only [bytesLe, if_neg (lt_irrefl x)] at h1 h2 ⊢
            exact ih h1 h2
          · rw [bytesLe, if_neg (show ¬ x < z by omega), if_pos hyz] at h2
            simp at h2
        · rw [bytesLe, if_neg (show ¬ x < y by omega), if_pos hxy] at h1
          simp at h1

/-- Insert into a list sorted by `bytesLe` on `key`. -/
def insertByKey {α : Type} (key : α → List Nat) (x : α) : List α → List α
  | [] => [x]
  | y :: ys => if bytesLe (key x) (key y) then x :: y :: ys else y :: insertByKey key x ys

/-- Sort a list by the unsigned lexicographic order of `key` (the canonical
ordering of Map/Set entries, §4.3). -/
def sortByKey {α : Type} (key : α → List Nat) : List α → List α
  | [] => []
  | x :: xs => insertByKey key x (sortByKey key xs)

theorem perm_insertByKey {α : Type} (key : α → List Nat) (x : α) (l : List α) :
    (insertByKey key x l).Perm (x :: l) := by
  induction l with
  | nil => exact List.Perm.refl _
  | cons y ys ih =>
    unfold insertByKey
    split
    · exact List.Perm.refl _
    · exact (ih.cons y).trans (List.Perm.swap x y ys)

theorem perm_sortByKey {α : Type} (key : α → List Nat) (l : List α) :
    (sortByKey key l).Perm l := by
  induction l with
  | nil => exact List.Perm.refl _
  | cons x xs ih => exact (perm_insertByKey key x _).trans (ih.cons x)

/-- Sortedness by key in the `bytesLe` order. -/
def SortedByKey {α : Type} (key : α → List Nat) (l : List α) : Prop :=
  l.Pairwise (fun p q => bytesLe (key p) (key q) = true)

theorem sorted_insertByKey {α : Type} (key : α → List Nat) (x : α) {l : List α}
    (h : SortedByKey key l) : SortedByKey key (insertByKey key x l) := by
  induction l with
  | nil => simp [insertByKey, SortedByKey]
  | cons y ys ih =>
    unfold insertByKey
    split
    next hle =>
      constructor
      · intro z hz
        rcases List.mem_cons.mp hz with hz | hz
        · subst hz; exact hle
        · exact bytesLe_trans hle ((List.pairwise_cons.mp h).1 z hz)
      · exact h
    next hle =>
      have hyx : bytesLe (key y) (key x) = true := by
        rcases bytesLe_total (key x) (key y) with h' | h'
        · exact absurd h' hle
        · exact h'
      rw [SortedByKey, List.pairwise_cons]
      constructor
      · intro z hz
        have := (perm_insertByKey key x ys).mem_iff.mp hz
        rcases List.mem_cons.mp this with hz' | hz'
        · subst hz'; exact hyx
        · exact (List.pairwise_cons.mp h).1 z hz'
      · exact ih (List.pairwise_cons.mp h).2

theorem sorted_sortByKey {α : Type} (key : α → List Nat) (l : List α) :
    SortedByKey key (sortByKey key l) := by
  induction l with
  | nil => simp [sortByKey, SortedByKey]
  | cons x xs ih => exact sorted_insertByKey key x ih

/-- Two sorted lists with the same key-distinct contents are equal: the
canonical order is unique once the serialized keys are pairwise distinct. -/
theorem sorted_key_perm_eq {α : Type} (key : α → List Nat) :
    ∀ (l1 l2 : List α), l1.Perm l2 → SortedByKey key l1 → SortedByKey key l2 →
      (l1.map key).Nodup → l1 = l2 := by
  intro l1
  induction l1 with
  | nil =>
    intro l2 hp _ _ _
    exact (hp.symm.eq_nil).symm ▸ rfl
  | cons a t1 ih =>
    intro l2 hp h1 h2 hnd
    cases l2 with
    | nil => exact absurd hp.eq_nil (by simp)
    | cons b t2 =>
      have hab : a = b := by
        by_contra hne
        have ha2 : a ∈ b :: t2 := hp.subset (List.mem_cons_self a t1)
        have hb1 : b ∈ a :: t1 := hp.symm.subset (List.mem_cons_self b t2)
        have hat2 : a ∈ t2 := by
          rcases List.mem_cons.mp ha2 with h | h
          · exact absurd h hne
          · exact h
        have hbt1 : b ∈ t1 := by
          rcases List.mem_cons.mp hb1 with h | h
          · exact absurd h.symm hne
          · exact h
        have hle1 : bytesLe (key a) (key b) = true :=
          (List.pairwise_cons.mp h1).1 b hbt1
        have hle2 : bytesLe (key b) (key a) = true :=
          (List.pairwise_cons.mp h2).1 a hat2
        have hk : key a = key b := bytesLe_antisymm hle1 hle2
        have hnd' : key a ∉ t1.map key ∧ (t1.map key).Nodup := by
          rw [List.map_cons, List.nodup_cons] at hnd
          exact hnd
        exact hnd'.1 (hk ▸ List.mem_map_of_mem key hbt1)
      subst hab
      have hnd' : (t1.map key).Nodup := by
        rw [List.map_cons, List.nodup_cons] at hnd
        exact hnd.2
      have ht : t1 = t2 :=
        ih t2 hp.cons_inv (List.pairwise_cons.mp h1).2 (List.pairwise_cons.mp h2).2 hnd'
      rw [ht]

/-! ## Python set / dict building at the byte level

`Set.serialize` adds each element's serialized bytes to a Python `set`
(duplicates collapse); `Map.serialize` builds a Python `dict` keyed by the
serialized key bytes (a later duplicate key overwrites the stored value but
keeps the first insertion position). -/

/-- Add a byte string to a set of byte strings (model of `set.add`). -/
def insertNew (x : List Nat) (l : List (List Nat)) : List (List Nat) :=
  if x ∈ l then l else l ++ [x]

/-- The set of byte strings accumulated by `Set.serialize`'s loop. -/
def buildSet (l : List (List Nat)) : List (List Nat) :=
  l.foldl (fun acc b => insertNew b acc) []

theorem mem_insertNew {y x : List Nat} {l : List (List Nat)} :
    y ∈ insertNew x l ↔ y ∈ l ∨ y = x := by
  unfold insertNew
  split
  next h => simp; intro he; subst he; simp [h]
  next h => simp

theorem nodup_insertNew {x : List Nat} {l : List (List Nat)} (h : l.Nodup) :
    (insertNew x l).Nodup := by
  unfold insertNew
  split
  next => exact h
  next hx => exact List.Nodup.append h (List.nodup_singleton x) (by simpa using hx)

theorem buildSet_aux_mem (l : List (List Nat)) :
    ∀ (acc : List (List Nat)) (y : List Nat),
      y ∈ l.foldl (fun acc b => insertNew b acc) acc ↔ y ∈ acc ∨ y ∈ l := by
  induction l with
  | nil => intro acc y; simp
  | cons b t ih =>
    intro acc y
    rw [List.foldl_cons, ih]
    rw [mem_insertNew]
    constructor
    · rintro (⟨h | h⟩ | h)
      · exact Or.inl h
      · exact Or.inr (by simp [h])
      · exact Or.inr (by simp [h])
    · rintro (h | h)
      · exact Or.inl (Or.inl h)
      · rcases List.mem_cons.mp h with h | h
        · exact Or.inl (Or.inr h)
        · exact Or.inr h

theorem buildSet_aux_nodup (l : List (List Nat)) :
    ∀ (acc : List (List Nat)), acc.Nodup →
      (l.foldl (fun acc b => insertNew b acc) acc).Nodup := by
  induction l with
  | nil => intro acc h; exact h
  | cons b t ih =>
    intro acc h
    rw [List.foldl_cons]
    exact ih _ (nodup_insertNew h)

theorem mem_buildSet {l : List (List Nat)} {y : List Nat} :
    y ∈ buildSet l ↔ y ∈ l := by
  rw [buildSet, buildSet_aux_mem]
  simp

theorem nodup_buildSet (l : List (List Nat)) : (buildSet l).Nodup :=
  buildSet_aux_nodup l [] List.nodup_nil

theorem buildSet_perm {l1 l2 : List (List Nat)} (h : l1.Perm l2) :
    (buildSet l1).Perm (buildSet l2) := by
  rw [List.perm_ext_iff_of_nodup (nodup_buildSet l1) (nodup_buildSet l2)]
  intro a
  rw [mem_buildSet, mem_buildSet]
  exact ⟨fun ha => h.subset ha, fun ha => h.symm.subset ha⟩

theorem buildSet_aux_nodup_id (l : List (List Nat)) :
    ∀ acc : List (List Nat), (acc ++ l).Nodup →
      l.foldl (fun acc b => insertNew b acc) acc = acc ++ l := by
  induction l with
  | nil => intro acc _; simp
  | cons b t ih =>
    intro acc h
    rw [List.foldl_cons]
    have hb : b ∉ acc := by
      intro hmem
      have := List.disjoint_of_nodup_append h
      exact this hmem (by simp)
    rw [show insertNew b acc = acc ++ [b] from by unfold insertNew; rw [if_neg hb]]
    rw [ih (acc ++ [b]) (by simpa using h)]
    simp

theorem buildSet_nodup_id {l : List (List Nat)} (h : l.Nodup) : buildSet l = l := by
  rw [buildSet, buildSet_aux_nodup_id l [] (by simpa using h)]
  simp

/-- Insert a serialized key / value pair into a Python dict of byte strings:
an existing key keeps its position and gets the new value, a new key is
appended (model of `temp_dict[key_bytes] = val_bytes`). -/
def upsert (k v : List Nat) : List (List Nat × List Nat) → List (List Nat × List Nat)
  | [] => [(k, v)]
  | (k', v') :: rest => if k' = k then (k, v) :: rest else (k', v') :: upsert k v rest

/-- The dict of byte strings accumulated by `Map.serialize`'s loop. -/
def buildDict (l : List (List Nat × List Nat)) : List (List Nat × List Nat) :=
  l.foldl (fun acc p => upsert p.1 p.2 acc) []

theorem upsert_not_mem {k v : List Nat} {acc : List (List Nat × List Nat)}
    (h : k ∉ acc.map Prod.fst) : upsert k v acc = acc ++ [(k, v)] := by
  induction acc with
  | nil => rfl
  | cons p t ih =>
    obtain ⟨k', v'⟩ := p
    simp only [List.map_cons, List.mem_cons] at h
    push_neg at h
    unfold upsert
    rw [if_neg (fun he => h.1 he.symm)]
    rw [ih h.2]
    simp

theorem buildDict_aux_nodup_id (l : List (List Nat × List Nat)) :
    ∀ acc : List (List Nat × List Nat), ((acc ++ l).map Prod.fst).Nodup →
      l.foldl (fun acc p => upsert p.1 p.2 acc) acc = acc ++ l := by
  induction l with
  | nil => intro acc _; simp
  | cons p t ih =>
    intro acc h
    obtain ⟨k, v⟩ := p
    rw [List.foldl_cons]
    have hk : k ∉ acc.map Prod.fst := by
      intro hmem
      rw [List.map_append] at h
      have := List.disjoint_of_nodup_append h
      exact this hmem (by simp)
    rw [upsert_not_mem hk]
    rw [ih (acc ++ [(k, v)]) (by simpa using h)]
    simp

theorem buildDict_nodup_id {l : List (List Nat × List Nat)}
    (h : (l.map Prod.fst).Nodup) : buildDict l = l := by
  rw [buildDict, buildDict_aux_nodup_id l [] (by simpa using h)]
  simp

/-! ## Canonical hashset / hashmap wire functions

Modelled from the spec: `write_hashset` / `write_hashmap` write a 4-byte
count followed by the entries sorted by the unsigned lexicographic order of
the serialized element / key bytes (§4.3); each entry is written as a
length-prefixed byte string (the overview describes the canonically ordered
byte strings as written length-prefixed, and `read_hashset` / `read_hashmap`
must be able to recover the individual entries, §4.1). -/

def writeEntriesVec : List (List Nat) → Except Err (List Nat)
  | [] => .ok []
  | e :: es =>
    match writeVec e with
    | .ok b1 =>
      match writeEntriesVec es with
      | .ok b2 => .ok (b1 ++ b2)
      | .error er => .error er
    | .error er => .error er

def readEntriesVec : Nat → List Nat → Except Err (List (List Nat) × List Nat)
  | 0, input => .ok ([], input)
  | n + 1, input =>
    match readVec input with
    | .ok (e, r) =>
      match readEntriesVec n r with
      | .ok (es, r2) => .ok (e :: es, r2)
      | .error er => .error er
    | .error er => .error er

/-- Modelled from the spec: `write_hashset` (§4.1, §4.3). -/
def writeHashset (entries : List (List Nat)) : Except Err (List Nat) :=
  if entries.length < 256 ^ 4 then
    match writeEntriesVec (sortByKey id entries) with
    | .ok bs => .ok (leBytes 4 entries.length ++ bs)
    | .error e => .error e
  else .error .rangeError

/-- Modelled from the spec: `read_hashset` (§4.1). -/
def readHashset (input : List Nat) : Except Err (List (List Nat) × List Nat) :=
  match readN 4 input with
  | .ok (lb, r) => readEntriesVec (leDecode lb) r
  | .error e => .error e

def writePairsVec : List (List Nat × List Nat) → Except Err (List Nat)
  | [] => .ok []
  | (k, v) :: es =>
    match writeVec k with
    | .ok bk =>
      match writeVec v with
      | .ok bv =>
        match writePairsVec es with
        | .ok b2 => .ok (bk ++ bv ++ b2)
        | .error er => .error er
      | .error er => .error er
    | .error er => .error er

def readPairsVec : Nat → List Nat → Except Err (List (List Nat × List Nat) × List Nat)
  | 0, input => .ok ([], input)
  | n + 1, input =>
    match readVec input with
    | .ok (k, r) =>
      match readVec r with
      | .ok (v, r2) =>
        match readPairsVec n r2 with
        | .ok (es, r3) => .ok ((k, v) :: es, r3)
        | .error er => .error er
      | .error er => .error er
    | .error er => .error er

/-- Modelled from the spec: `write_hashmap` writes the count then the
key / value byte-string pairs sorted by key bytes (§4.1, §4.3). -/
def writeHashmap (pairs : List (List Nat × List Nat)) : Except Err (List Nat) :=
  if pairs.length < 256 ^ 4 then
    match writePairsVec (sortByKey Prod.fst pairs) with
    | .ok bs => .ok (leBytes 4 pairs.length ++ bs)
    | .error e => .error e
  else .error .rangeError

/-- Modelled from the spec: `read_hashmap` (§4.1). -/
def readHashmap (input : List Nat) : Except Err (List (List Nat × List Nat) × List Nat) :=
  match readN 4 input with
  | .ok (lb, r) => readPairsVec (leDecode lb) r
  | .error e => .error e

theorem readEntriesVec_write {es : List (List Nat)} :
    ∀ {bs : List Nat}, writeEntriesVec es = .ok bs → ∀ rest,
      readEntriesVec es.length (bs ++ rest) = .ok (es, rest) := by
  induction es with
  | nil => intro bs h rest; cases h; rfl
  | cons e t ih =>
    intro bs h rest
    unfold writeEntriesVec at h
    split at h
    next b1 hw =>
      split at h
      next b2 hw2 =>
        cases h
        show readEntriesVec (t.length + 1) ((b1 ++ b2) ++ rest) = .ok (e :: t, rest)
        unfold readEntriesVec
        rw [List.append_assoc, readVec_writeVec hw]
        dsimp only
        rw [ih hw2 rest]
      next => cases h
    next => cases h

theorem readPairsVec_write {es : List (List Nat × List Nat)} :
    ∀ {bs : List Nat}, writePairsVec es = .ok bs → ∀ rest,
      readPairsVec es.length (bs ++ rest) = .ok (es, rest) := by
  induction es with
  | nil => intro bs h rest; cases h; rfl
  | cons p t ih =>
    intro bs h rest
    obtain ⟨k, v⟩ := p
    unfold writePairsVec at h
    split at h
    next bk hw =>
      split at h
      next bv hw2 =>
        split at h
        next b2 hw3 =>
          cases h
          show readPairsVec (t.length + 1) ((bk ++ bv ++ b2) ++ rest) = .ok ((k, v) :: t, rest)
          unfold readPairsVec
          rw [List.append_assoc, List.append_assoc, readVec_writeVec hw]
          dsimp only
          rw [readVec_writeVec hw2]
          dsimp only
          rw [ih hw3 rest]
        next => cases h
      next => cases h
    next => cases h

/-! ## IEEE-754 bit-pattern helpers

Floats are modelled by their bit patterns; Python's numeric `==` compares a
float with an integer by exact value, which is computed here directly from
the pattern (sign, exponent, mantissa). -/

def f64IsNaN (p : Nat) : Bool :=
  decide ((p / 2 ^ 52) % 2 ^ 11 = 2 ^ 11 - 1) && decide (p % 2 ^ 52 ≠ 0)

def f32IsNaN (p : Nat) : Bool :=
  decide ((p / 2 ^ 23) % 2 ^ 8 = 2 ^ 8 - 1) && decide (p % 2 ^ 23 ≠ 0)

def f64IsZero (p : Nat) : Bool := decide (p % 2 ^ 63 = 0)

def f32IsZero (p : Nat) : Bool := decide (p % 2 ^ 31 = 0)

/-- Python `==` between the double with bit pattern `p` and the integer `n`. -/
def f64EqInt (p : Nat) (n : Int) : Bool :=
  let s := (p / 2 ^ 63) % 2
  let e := (p / 2 ^ 52) % 2 ^ 11
  let m := p % 2 ^ 52
  if e = 2 ^ 11 - 1 then false
  else if e = 0 then decide (m = 0 ∧ n = 0)
  else if 1075 ≤ e then
    n == (if s = 1 then -(((2 ^ 52 + m) * 2 ^ (e - 1075) : Nat) : Int)
          else (((2 ^ 52 + m) * 2 ^ (e - 1075) : Nat) : Int))
  else if (2 ^ 52 + m) % 2 ^ (1075 - e) = 0 then
    n == (if s = 1 then -((((2 ^ 52 + m) / 2 ^ (1075 - e) : Nat)) : Int)
          else ((((2 ^ 52 + m) / 2 ^ (1075 - e) : Nat)) : Int))
  else false

/-- Python `==` between the single-precision float with bit pattern `p` and
the integer `n`. -/
def f32EqInt (p : Nat) (n : Int) : Bool :=
  let s := (p / 2 ^ 31) % 2
  let e := (p / 2 ^ 23) % 2 ^ 8
  let m := p % 2 ^ 23
  if e = 2 ^ 8 - 1 then false
  else if e = 0 then decide (m = 0 ∧ n = 0)
  else if 150 ≤ e then
    n == (if s = 1 then -(((2 ^ 23 + m) * 2 ^ (e - 150) : Nat) : Int)
          else (((2 ^ 23 + m) * 2 ^ (e - 150) : Nat) : Int))
  else if (2 ^ 23 + m) % 2 ^ (150 - e) = 0 then
    n == (if s = 1 then -((((2 ^ 23 + m) / 2 ^ (150 - e) : Nat)) : Int)
          else ((((2 ^ 23 + m) / 2 ^ (150 - e) : Nat)) : Int))
  else false

/-- Python `==` between two doubles given by their bit patterns: NaN compares
unequal to everything, positive and negative zero compare equal, every other
value is equal exactly to itself. -/
def f64Eq (p q : Nat) : Bool :=
  if f64IsNaN p || f64IsNaN q then false
  else p == q || (f64IsZero p && f64IsZero q)

def f32Eq (p q : Nat) : Bool :=
  if f32IsNaN p || f32IsNaN q then false
  else p == q || (f32IsZero p && f32IsZero q)

/-! ## The external text codec for public keys

Modelled from the spec: base58 text encoding of public-key-like values is an
out-of-scope external collaborator, consumed as an opaque encode / decode
pair (§1, §6).  It is instantiated by a concrete executable codec mapping
each byte to two letters; it satisfies the laws the spec relies on: decoding
an encoded blob returns the blob, and encoding a successfully decoded text
returns the text. -/

def b58Encode : List Nat → List Nat
  | [] => []
  | b :: bs => (65 + b / 16) :: (65 + b % 16) :: b58Encode bs

def b58Decode : List Nat → Option (List Nat)
  | [] => some []
  | [_] => Option.none
  | c1 :: c2 :: cs =>
    if 65 ≤ c1 ∧ c1 < 81 ∧ 65 ≤ c2 ∧ c2 < 81 then
      match b58Decode cs with
      | some bs => some (((c1 - 65) * 16 + (c2 - 65)) :: bs)
      | Option.none => Option.none
    else Option.none

theorem b58Decode_encode {bs : List Nat} (h : ∀ b ∈ bs, b < 256) :
    b58Decode (b58Encode bs) = some bs := by
  induction bs with
  | nil => rfl
  | cons b t ih =>
    have hb : b < 256 := h b (by simp)
    show b58Decode ((65 + b / 16) :: (65 + b % 16) :: b58Encode t) = some (b :: t)
    simp only [b58Decode]
    rw [if_pos (by refine ⟨?_, ?_, ?_, ?_⟩ <;> omega)]
    rw [ih (fun x hx => h x (by simp [hx]))]
    have : (65 + b / 16 - 65) * 16 + (65 + b % 16 - 65) = b := by omega
    rw [this]

theorem b58Encode_decode : ∀ {bs cs : List Nat}, b58Decode cs = some bs →
    b58Encode bs = cs := by
  intro bs
  induction bs with
  | nil =>
    intro cs h
    match cs with
    | [] => rfl
    | [c] => simp [b58Decode] at h
    | c1 :: c2 :: cs' =>
      simp only [b58Decode] at h
      split at h
      · split at h
        · simp at h
        · cases h
      · cases h
  | cons b t ih =>
    intro cs h
    match cs with
    | [] => simp [b58Decode] at h
    | [c] => simp [b58Decode] at h
    | c1 :: c2 :: cs' =>
      simp only [b58Decode] at h
      split at h
      next hc =>
        split at h
        next bs' hd =>
          rw [Option.some_inj] at h
          cases h
          show (65 + ((c1 - 65) * 16 + (c2 - 65)) / 16) ::
              (65 + ((c1 - 65) * 16 + (c2 - 65)) % 16) :: b58Encode t = c1 :: c2 :: cs'
          rw [ih hd]
          have h1 : 65 + ((c1 - 65) * 16 + (c2 - 65)) / 16 = c1 := by omega
          have h2 : 65 + ((c1 - 65) * 16 + (c2 - 65)) % 16 = c2 := by omega
          rw [h1, h2]
        next => cases h
      next => cases h

theorem length_b58Decode : ∀ {bs cs : List Nat}, b58Decode cs = some bs →
    cs.length = 2 * bs.length := by
  intro bs
  induction bs with
  | nil =>
    intro cs h
    match cs with
    | [] => rfl
    | [c] => simp [b58Decode] at h
    | c1 :: c2 :: cs' =>
      simp only [b58Decode] at h
      split at h
      · split at h
        · simp at h
        · cases h
      · cases h
  | cons b t ih =>
    intro cs h
    match cs with
    | [] => simp [b58Decode] at h
    | [c] => simp [b58Decode] at h
    | c1 :: c2 :: cs' =>
      simp only [b58Decode] at h
      split at h
      next hc =>
        split at h
        next bs' hd =>
          rw [Option.some_inj] at h
          cases h
          simp only [List.length_cons]
          rw [ih hd]
          ring
        next => cases h
      next => cases h

theorem b58Decode_bytes : ∀ {bs cs : List Nat}, b58Decode cs = some bs →
    ∀ b ∈ bs, b < 256 := by
  intro bs
  induction bs with
  | nil => intro cs _ b hb; simp at hb
  | cons b t ih =>
    intro cs h
    match cs with
    | [] => simp [b58Decode] at h
    | [c] => simp [b58Decode] at h
    | c1 :: c2 :: cs' =>
      simp only [b58Decode] at h
      split at h
      next hc =>
        split at h
        next bs' hd =>
          rw [Option.some_inj] at h
          cases h
          intro x hx
          rcases List.mem_cons.mp hx with hx | hx
          · subst hx; rcases hc with ⟨hc1, hc2, hc3, hc4⟩; omega
          · exact ih hd x hx
        next => cases h
      next => cases h

/-! ## Python equality

`pyEq` models Python `==` on the modelled value universe: numeric values
compare across `bool` / `int` / `float` by value, container equality is
element- resp. pairwise, and `set` equality is mutual membership. -/

def pyEq : PyVal → PyVal → Bool
  | .none, .none => true
  | .bool a, .bool b => a == b
  | .bool a, .int n => (if a then 1 else 0 : Int) == n
  | .bool a, .f64 p => f64EqInt p (if a then 1 else 0)
  | .bool a, .f32 p => f32EqInt p (if a then 1 else 0)
  | .int m, .bool b => m == (if b then 1 else 0)
  | .int m, .int n => m == n
  | .int m, .f64 p => f64EqInt p m
  | .int m, .f32 p => f32EqInt p m
  | .f64 p, .int n => f64EqInt p n
  | .f64 p, .bool b => f64EqInt p (if b then 1 else 0)
  | .f64 p, .f64 q => f64Eq p q
  | .f32 p, .int n => f32EqInt p n
  | .f32 p, .bool b => f32EqInt p (if b then 1 else 0)
  | .f32 p, .f32 q => f32Eq p q
  | .str a, .str b => a == b
  | .bytes a, .bytes b => a == b
  | .list xs, .list ys =>
      xs.length == ys.length &&
      (xs.zip ys).attach.all fun p => pyEq p.1.1 p.1.2
  | .set xs, .set ys =>
      (xs.attach.all fun x => ys.any fun y => pyEq x.1 y) &&
      (ys.all fun y => xs.attach.any fun x => pyEq x.1 y)
  | .dict xs, .dict ys =>
      xs.length == ys.length &&
      (xs.attach.all fun p => ys.any fun q => pyEq p.1.1 q.1 && pyEq p.1.2 q.2) &&
      (ys.all fun q => xs.attach.any fun p => pyEq p.1.1 q.1 && pyEq p.1.2 q.2)
  | _, _ => false
termination_by a b => sizeOf a
decreasing_by
  all_goals simp_wf
  all_goals try (have h1 := List.sizeOf_lt_of_mem x.2; omega)
  all_goals obtain ⟨⟨a, b⟩, hp⟩ := p
  all_goals try (have h1 := List.sizeOf_lt_of_mem (List.of_mem_zip hp).1; simp at h1 ⊢; omega)
  all_goals (have h1 := List.sizeOf_lt_of_mem hp; simp at h1 ⊢; omega)

/-- Pairwise Python-distinctness (the elements of a Python set, and the keys
of a Python dict, are pairwise `!=`). -/
def pyAllDistinct : List PyVal → Bool
  | [] => true
  | x :: xs => xs.all (fun y => !pyEq x y && !pyEq y x) && pyAllDistinct xs

/-- Python truthiness of the values `Bool.serialize` accepts
(`bool(value)`: exactly the accepted values not equal to 0 are truthy). -/
def boolArg (v : PyVal) : Bool := !pyEq v (.int 0)

def pyIsBool : PyVal → Bool
  | .bool _ => true
  | _ => false

/-! ## Type descriptors

The `BorshType` variants of `qborsh/types/*.py` as one inductive.  A
`record` is a `Schema` with its constructor flags (`validate`,
`exact_size`); the `dotdict` flag only wraps the decoded mapping in the
dict-with-dot-access presentation wrapper, which the spec excludes, and is
not modelled.  Field names are Python strings, modelled like string values
as lists of unicode scalar values. -/
inductive Desc where
  | uint (w : Nat)
  | int (w : Nat)
  | f32
  | f64
  | bool
  | string
  | bytes
  | optional (d : Desc)
  | array (d : Desc) (n : Nat)
  | vector (d : Desc)
  | set (d : Desc)
  | map (k v : Desc)
  | pubkey
  | padding (d : Desc)
  | record (fields : List (List Nat × Desc)) (validate exactSize : Bool)
deriving Repr

/-- The `_PADDING` class flag (`helpers.py`, `schema.py`). -/
def isPaddingD : Desc → Bool
  | .padding _ => true
  | _ => false

/-- The widths of the numeric descriptors `U8..U128` / `I8..I128`
(`sizeof = bits // 8`). -/
def descU8 : Desc := .uint 1
def descU16 : Desc := .uint 2
def descU32 : Desc := .uint 4
def descU64 : Desc := .uint 8
def descU128 : Desc := .uint 16
def descI8 : Desc := .int 1
def descI16 : Desc := .int 2
def descI32 : Desc := .int 4
def descI64 : Desc := .int 8
def descI128 : Desc := .int 16

mutual

/-- The `sizeof()` capability: the fixed encoded size when statically known,
`none` when variable (`base.py`, each descriptor's `sizeof`). -/
def sizeofD : Desc → Option Nat
  | .uint w => some w
  | .int w => some w
  | .f32 => some 4
  | .f64 => some 8
  | .bool => some 1
  | .string => Option.none
  | .bytes => Option.none
  | .optional _ => Option.none
  | .array d n =>
    match sizeofD d with
    | some s => some (s * n)
    | Option.none => Option.none
  | .vector _ => Option.none
  | .set _ => Option.none
  | .map _ _ => Option.none
  | .pubkey => some 32
  | .padding d => sizeofD d
  | .record fields _ exactSize => sizeofFields fields exactSize 0

/-- `Schema.sizeof`: sum the fixed field sizes; an unknown-size field makes
the whole size unknown in `exact_size` mode and is skipped otherwise. -/
def sizeofFields : List (List Nat × Desc) → Bool → Nat → Option Nat
  | [], _, acc => some acc
  | (_, d) :: rest, exact, acc =>
    match sizeofD d with
    | some s => sizeofFields rest exact (acc + s)
    | Option.none => if exact then Option.none else sizeofFields rest exact acc

end

/-- Look a field up by name in a record's field table. -/
def lookupField : List (List Nat × Desc) → List Nat → Option Desc
  | [], _ => Option.none
  | (n, d) :: rest, name => if n = name then some d else lookupField rest name

theorem sizeOf_lookupField {fields : List (List Nat × Desc)} {name : List Nat}
    {d : Desc} (h : lookupField fields name = some d) : sizeOf d < sizeOf fields := by
  induction fields with
  | nil => cases h
  | cons p rest ih =>
    obtain ⟨n, fd⟩ := p
    unfold lookupField at h
    split at h
    · cases h; simp; omega
    · have := ih h
      simp
      omega

mutual

/-- Well-formedness of a descriptor as constructible by the library:
`Padding(inner)` requires a fixed-size inner type (its constructor fails
with `ValueError` otherwise) and a record's declared field names are
distinct (they are the keys of the class's type-hint dict). -/
def wf : Desc → Bool
  | .optional d => wf d
  | .array d _ => wf d
  | .vector d => wf d
  | .set d => wf d
  | .map k v => wf k && wf v
  | .padding d => (sizeofD d).isSome && wf d
  | .record fields _ _ => decide (fields.map Prod.fst).Nodup && wfFields fields
  | _ => true

def wfFields : List (List Nat × Desc) → Bool
  | [] => true
  | (_, d) :: rest => wf d && wfFields rest

end

mutual

/-- No record anywhere in the descriptor has a `Padding` field (a record's
`deserialize` drops such fields from the output mapping). -/
def noPadRecords : Desc → Bool
  | .optional d => noPadRecords d
  | .array d _ => noPadRecords d
  | .vector d => noPadRecords d
  | .set d => noPadRecords d
  | .map k v => noPadRecords k && noPadRecords v
  | .padding d => noPadRecords d
  | .record fields _ _ => noPadRecordsFields fields
  | _ => true

def noPadRecordsFields : List (List Nat × Desc) → Bool
  | [] => true
  | (_, d) :: rest => !isPaddingD d && noPadRecords d && noPadRecordsFields rest

end

/-- Python dict lookup `data[key]` with a string key: the first (unique)
pair whose key compares `==` to the name. -/
def pyLookup : List (PyVal × PyVal) → List Nat → Option PyVal
  | [], _ => Option.none
  | (k, v) :: rest, name => if pyEq k (.str name) then some v else pyLookup rest name

/-- The declared field names absent from the value mapping
(`schema_keys - data_keys`, rendered in declaration order). -/
def missingKeys (fields : List (List Nat × Desc)) (kvs : List (PyVal × PyVal)) : List (List Nat) :=
  (fields.map Prod.fst).filter fun n => !kvs.any fun p => pyEq p.1 (.str n)

/-- The value-mapping keys that are not declared fields
(`data_keys - schema_keys`, rendered in mapping order). -/
def extraKeys (fields : List (List Nat × Desc)) (kvs : List (PyVal × PyVal)) : List PyVal :=
  (kvs.map Prod.fst).filter fun k => !fields.any fun f => pyEq k (.str f.1)

def okBytes : Except Err (List Nat) → List Nat
  | .ok bs => bs
  | .error _ => []

theorem one_le_sizeOf_Desc (d : Desc) : 1 ≤ sizeOf d := by
  cases d <;> simp <;> omega

mutual

/-- `serialize` of every descriptor, producing the bytes it writes into the
buffer (writes append, so a serializer's effect is the byte string it
appends); errors are raised exactly where the sources raise them. -/
def serialize : Desc → PyVal → Except Err (List Nat)
  | .uint w, v =>
    match v with
    | .int z =>
      if 0 ≤ z ∧ z < ((256 ^ w : Nat) : Int) then .ok (leBytes w z.toNat)
      else .error .rangeError
    | _ => .error .typeError
  | .int w, v =>
    match v with
    | .int z =>
      if -((256 ^ w / 2 : Nat) : Int) ≤ z ∧ z < ((256 ^ w / 2 : Nat) : Int) then
        .ok (leBytes w (toTwos w z))
      else .error .rangeError
    | _ => .error .typeError
  | .f32, v =>
    match v with
    | .f32 bits => .ok (leBytes 4 bits)
    | _ => .error .typeError
  | .f64, v =>
    match v with
    | .f64 bits => .ok (leBytes 8 bits)
    | _ => .error .typeError
  | .bool, v =>
    if pyIsBool v || pyEq v (.int 0) || pyEq v (.int 1) then .ok (writeBool (boolArg v))
    else .error .typeError
  | .string, v =>
    match v with
    | .str cs => writeVec (utf8Encode cs)
    | _ => .error .typeError
  | .bytes, v =>
    match v with
    | .bytes bs => writeVec bs
    | _ => .error .typeError
  | .optional d, v =>
    match v with
    | .none => .ok (writeBool false)
    | _ =>
      match serialize d v with
      | .ok bs => .ok (writeBool true ++ bs)
      | .error e => .error e
  | .array d n, v =>
    match v with
    | .list xs =>
      if xs.length ≠ n then .error .valueError
      else serializeElems d xs
    | _ => .error .typeError
  | .vector d, v =>
    match v with
    | .list xs =>
      if xs.length < 256 ^ 4 then
        match serializeElems d xs with
        | .ok bs => .ok (leBytes 4 xs.length ++ bs)
        | .error e => .error e
      else .error .rangeError
    | _ => .error .typeError
  | .set d, v =>
    match v with
    | .set xs =>
      match serializeSetElems d xs with
      | .ok entries => writeHashset (buildSet entries)
      | .error e => .error e
    | _ => .error .typeError
  | .map kd vd, v =>
    match v with
    | .dict kvs =>
      match serializeMapPairs kd vd kvs with
      | .ok pairs => writeHashmap (buildDict pairs)
      | .error e => .error e
    | _ => .error .typeError
  | .pubkey, v =>
    match v with
    | .bytes bs => if bs.length = 32 then .ok bs else .error .valueError
    | .str cs =>
      match b58Decode cs with
      | some bs => if bs.length = 32 then .ok bs else .error .valueError
      | Option.none => .error .valueError
    | _ => .error .typeError
  | .padding d, _ => .ok (List.replicate ((sizeofD d).getD 0) 0)
  | .record fields validate _, v =>
    match v with
    | .dict kvs =>
      if validate then
        if (missingKeys fields kvs).isEmpty then
          if (extraKeys fields kvs).isEmpty then serializeFields fields kvs
          else .error (.valueErrorExtra (extraKeys fields kvs))
        else .error (.valueErrorMissing (missingKeys fields kvs))
      else serializeFields fields kvs
    | _ => .error .typeError
termination_by d _ => (sizeOf d, 0)
decreasing_by
  all_goals simp_wf
  all_goals (apply Prod.Lex.left; first | omega | (simp; omega) | simp)

/-- Serialize a sequence of elements back to back (Array / Vector loop). -/
def serializeElems (d : Desc) : List PyVal → Except Err (List Nat)
  | [] => .ok []
  | x :: xs =>
    match serialize d x with
    | .ok b =>
      match serializeElems d xs with
      | .ok bs => .ok (b ++ bs)
      | .error e => .error e
    | .error e => .error e
termination_by xs => (sizeOf d, 1 + sizeOf xs)
decreasing_by
  all_goals simp_wf
  all_goals try (apply Prod.Lex.right; first | omega | (simp; omega) | simp)
  all_goals (apply Prod.Lex.left; first | omega | (simp; omega) | simp)

/-- Serialize each set element into its own scratch buffer, collecting the
per-element byte strings in iteration order (`Set.serialize` loop). -/
def serializeSetElems (d : Desc) : List PyVal → Except Err (List (List Nat))
  | [] => .ok []
  | x :: xs =>
    match serialize d x with
    | .ok b =>
      match serializeSetElems d xs with
      | .ok bs => .ok (b :: bs)
      | .error e => .error e
    | .error e => .error e
termination_by xs => (sizeOf d, 1 + sizeOf xs)
decreasing_by
  all_goals simp_wf
  all_goals try (apply Prod.Lex.right; first | omega | (simp; omega) | simp)
  all_goals (apply Prod.Lex.left; first | omega | (simp; omega) | simp)

/-- Serialize each key and value into their own scratch buffers, collecting
the byte-string pairs in iteration order (`Map.serialize` loop). -/
def serializeMapPairs (kd vd : Desc) : List (PyVal × PyVal) → Except Err (List (List Nat × List Nat))
  | [] => .ok []
  | (k, v) :: rest =>
    match serialize kd k with
    | .ok bk =>
      match serialize vd v with
      | .ok bv =>
        match serializeMapPairs kd vd rest with
        | .ok ps => .ok ((bk, bv) :: ps)
        | .error e => .error e
      | .error e => .error e
    | .error e => .error e
termination_by kvs => (sizeOf kd + sizeOf vd, 1 + sizeOf kvs)
decreasing_by
  all_goals simp_wf
  all_goals try (apply Prod.Lex.right; first | omega | (simp; omega) | simp)
  all_goals
    (apply Prod.Lex.left
     have h1 := one_le_sizeOf_Desc kd
     have h2 := one_le_sizeOf_Desc vd
     first | omega | (simp; omega) | simp)

/-- Serialize the record's fields in declared order, looking each field's
value up in the mapping (a missing key raises the lookup failure). -/
def serializeFields : List (List Nat × Desc) → List (PyVal × PyVal) → Except Err (List Nat)
  | [], _ => .ok []
  | (name, d) :: rest, kvs =>
    match pyLookup kvs name with
    | some v =>
      match serialize d v with
      | .ok bs =>
        match serializeFields rest kvs with
        | .ok bs2 => .ok (bs ++ bs2)
        | .error e => .error e
      | .error e => .error e
    | Option.none => .error .keyError
termination_by fields _ => (sizeOf fields, 0)
decreasing_by
  all_goals simp_wf
  all_goals (apply Prod.Lex.left; first | omega | (simp; omega) | simp)

end

/-- Python set insertion of a decoded element: an element equal to an
existing one collapses (`typed_set.add`). -/
def pySetInsert (acc : List PyVal) (x : PyVal) : List PyVal :=
  if acc.any (fun y => pyEq y x) then acc else acc ++ [x]

/-- The Python set of a list of decoded elements in iteration order. -/
def buildPySet (l : List PyVal) : List PyVal :=
  l.foldl pySetInsert []

/-- Python dict insertion of a decoded key / value: an equal existing key
keeps its position (and key object) and takes the new value, otherwise the
pair is appended (`typed_dict[typed_key] = typed_val`). -/
def pyDictInsert (acc : List (PyVal × PyVal)) (k v : PyVal) : List (PyVal × PyVal) :=
  match acc with
  | [] => [(k, v)]
  | (k', v') :: rest => if pyEq k' k then (k', v) :: rest else (k', v') :: pyDictInsert rest k v

/-- The Python dict of a list of decoded key / value pairs in read order. -/
def buildPyDict (l : List (PyVal × PyVal)) : List (PyVal × PyVal) :=
  l.foldl (fun acc p => pyDictInsert acc p.1 p.2) []

/-- Python `del data[key]`: remove the (unique) pair whose key equals `k`. -/
def pyDictDelete (acc : List (PyVal × PyVal)) (k : PyVal) : List (PyVal × PyVal) :=
  match acc with
  | [] => []
  | (k', v') :: rest => if pyEq k' k then rest else (k', v') :: pyDictDelete rest k

mutual

/-- `deserialize` of every descriptor: read a value off the front of the
unread input, returning it with the unread tail. -/
def deserialize : Desc → List Nat → Except Err (PyVal × List Nat)
  | .uint w, input =>
    match readN w input with
    | .ok (bs, r) => .ok (.int (leDecode bs), r)
    | .error e => .error e
  | .int w, input =>
    match readN w input with
    | .ok (bs, r) => .ok (.int (fromTwos w (leDecode bs)), r)
    | .error e => .error e
  | .f32, input =>
    match readN 4 input with
    | .ok (bs, r) => .ok (.f32 (leDecode bs), r)
    | .error e => .error e
  | .f64, input =>
    match readN 8 input with
    | .ok (bs, r) => .ok (.f64 (leDecode bs), r)
    | .error e => .error e
  | .bool, input =>
    match readBool input with
    | .ok (b, r) => .ok (.bool b, r)
    | .error e => .error e
  | .string, input =>
    match readVec input with
    | .ok (bs, r) =>
      match utf8Decode bs with
      | some cs => .ok (.str cs, r)
      | Option.none => .error .valueError
    | .error e => .error e
  | .bytes, input =>
    match readVec input with
    | .ok (bs, r) => .ok (.bytes bs, r)
    | .error e => .error e
  | .optional d, input =>
    match readBool input with
    | .ok (b, r) =>
      if b then
        match deserialize d r with
        | .ok (v, r2) => .ok (v, r2)
        | .error e => .error e
      else .ok (.none, r)
    | .error e => .error e
  | .array d n, input =>
    match deserializeCount d n input with
    | .ok (vs, r) => .ok (.list vs, r)
    | .error e => .error e
  | .vector d, input =>
    match readN 4 input with
    | .ok (lb, r) =>
      match deserializeCount d (leDecode lb) r with
      | .ok (vs, r2) => .ok (.list vs, r2)
      | .error e => .error e
    | .error e => .error e
  | .set d, input =>
    match readHashset input with
    | .ok (entries, r) =>
      match deserializeEntries d entries with
      | .ok vs => .ok (.set (buildPySet vs), r)
      | .error e => .error e
    | .error e => .error e
  | .map kd vd, input =>
    match readHashmap input with
    | .ok (rawPairs, r) =>
      match deserializePairs kd vd rawPairs with
      | .ok ps => .ok (.dict (buildPyDict ps), r)
      | .error e => .error e
    | .error e => .error e
  | .pubkey, input =>
    match readN 32 input with
    | .ok (bs, r) => .ok (.str (b58Encode bs), r)
    | .error e => .error e
  | .padding d, input =>
    match readN ((sizeofD d).getD 0) input with
    | .ok (_, r) => .ok (.none, r)
    | .error e => .error e
  | .record fields _ _, input =>
    match deserializeFields fields [] input with
    | .ok (kvs, r) => .ok (.dict kvs, r)
    | .error e => .error e
termination_by d _ => (sizeOf d, 0)
decreasing_by
  all_goals simp_wf
  all_goals (apply Prod.Lex.left; first | omega | (simp; omega) | simp)

/-- Read `n` successive elements (Array / Vector loop). -/
def deserializeCount (d : Desc) : Nat → List Nat → Except Err (List PyVal × List Nat)
  | 0, input => .ok ([], input)
  | n + 1, input =>
    match deserialize d input with
    | .ok (v, r) =>
      match deserializeCount d n r with
      | .ok (vs, r2) => .ok (v :: vs, r2)
      | .error e => .error e
    | .error e => .error e
termination_by n _ => (sizeOf d, 1 + n)
decreasing_by
  all_goals simp_wf
  all_goals try (apply Prod.Lex.right; first | omega | (simp; omega) | simp)
  all_goals (apply Prod.Lex.left; first | omega | (simp; omega) | simp)

/-- Deserialize each raw set entry from its own scratch buffer
(`Set.deserialize` loop); trailing entry bytes are ignored. -/
def deserializeEntries (d : Desc) : List (List Nat) → Except Err (List PyVal)
  | [] => .ok []
  | e :: es =>
    match deserialize d e with
    | .ok (v, _) =>
      match deserializeEntries d es with
      | .ok vs => .ok (v :: vs)
      | .error er => .error er
    | .error er => .error er
termination_by es => (sizeOf d, 1 + sizeOf es)
decreasing_by
  all_goals simp_wf
  all_goals try (apply Prod.Lex.right; first | omega | (simp; omega) | simp)
  all_goals (apply Prod.Lex.left; first | omega | (simp; omega) | simp)

/-- Deserialize each raw key / value entry pair from its own scratch
buffers (`Map.deserialize` loop). -/
def deserializePairs (kd vd : Desc) : List (List Nat × List Nat) → Except Err (List (PyVal × PyVal))
  | [] => .ok []
  | (kb, vb) :: rest =>
    match deserialize kd kb with
    | .ok (k, _) =>
      match deserialize vd vb with
      | .ok (v, _) =>
        match deserializePairs kd vd rest with
        | .ok ps => .ok ((k, v) :: ps)
        | .error er => .error er
      | .error er => .error er
    | .error er => .error er
termination_by rest => (sizeOf kd + sizeOf vd, 1 + sizeOf rest)
decreasing_by
  all_goals simp_wf
  all_goals try (apply Prod.Lex.right; first | omega | (simp; omega) | simp)
  all_goals
    (apply Prod.Lex.left
     have h1 := one_le_sizeOf_Desc kd
     have h2 := one_le_sizeOf_Desc vd
     first | omega | (simp; omega) | simp)

/-- `Schema.deserialize`'s loop: read each field in order into the output
mapping, deleting a Padding field's entry right after inserting it. -/
def deserializeFields : List (List Nat × Desc) → List (PyVal × PyVal) → List Nat →
    Except Err (List (PyVal × PyVal) × List Nat)
  | [], acc, input => .ok (acc, input)
  | (name, d) :: rest, acc, input =>
    match deserialize d input with
    | .ok (v, r) =>
      deserializeFields rest
        (if isPaddingD d then pyDictDelete (pyDictInsert acc (.str name) v) (.str name)
         else pyDictInsert acc (.str name) v) r
    | .error e => .error e
termination_by fields _ _ => (sizeOf fields, 0)
decreasing_by
  all_goals simp_wf
  all_goals (apply Prod.Lex.left; first | omega | (simp; omega) | simp)

end

mutual

/-- The exact decoded form of a valid value: what `decode (encode v)`
returns.  Scalars decode to themselves, accepted Bool inputs to their
truthiness, PubKey payloads to their text form, Padding to no value; set
and map contents come back in the canonical serialized-byte order. -/
def canon : Desc → PyVal → PyVal
  | .uint _, v => v
  | .int _, v => v
  | .f32, v => v
  | .f64, v => v
  | .bool, v => .bool (boolArg v)
  | .string, v => v
  | .bytes, v => v
  | .optional d, v =>
    match v with
    | .none => .none
    | _ => canon d v
  | .array d _, v =>
    match v with
    | .list xs => .list (canonElems d xs)
    | _ => v
  | .vector d, v =>
    match v with
    | .list xs => .list (canonElems d xs)
    | _ => v
  | .set d, v =>
    match v with
    | .set xs => .set (buildPySet ((sortByKey Prod.fst (canonSetEntries d xs)).map Prod.snd))
    | _ => v
  | .map kd vd, v =>
    match v with
    | .dict kvs => .dict (buildPyDict ((sortByKey Prod.fst (canonMapEntries kd vd kvs)).map Prod.snd))
    | _ => v
  | .pubkey, v =>
    match v with
    | .bytes bs => .str (b58Encode bs)
    | _ => v
  | .padding _, _ => .none
  | .record fields _ _, v =>
    match v with
    | .dict kvs => .dict (canonFields fields kvs)
    | _ => v
termination_by d _ => (sizeOf d, 0)
decreasing_by
  all_goals simp_wf
  all_goals (apply Prod.Lex.left; first | omega | (simp; omega) | simp)

def canonElems (d : Desc) : List PyVal → List PyVal
  | [] => []
  | x :: xs => canon d x :: canonElems d xs
termination_by xs => (sizeOf d, 1 + sizeOf xs)
decreasing_by
  all_goals simp_wf
  all_goals try (apply Prod.Lex.right; first | omega | (simp; omega) | simp)
  all_goals (apply Prod.Lex.left; first | omega | (simp; omega) | simp)

/-- Pair each set element's canonical decoded form with its serialized
bytes (the canonical sort key). -/
def canonSetEntries (d : Desc) : List PyVal → List (List Nat × PyVal)
  | [] => []
  | x :: xs => (okBytes (serialize d x), canon d x) :: canonSetEntries d xs
termination_by xs => (sizeOf d, 1 + sizeOf xs)
decreasing_by
  all_goals simp_wf
  all_goals try (apply Prod.Lex.right; first | omega | (simp; omega) | simp)
  all_goals (apply Prod.Lex.left; first | omega | (simp; omega) | simp)

/-- Pair each map entry's canonical decoded key / value with the key's
serialized bytes (the canonical sort key). -/
def canonMapEntries (kd vd : Desc) : List (PyVal × PyVal) → List (List Nat × (PyVal × PyVal))
  | [] => []
  | (k, v) :: rest =>
    (okBytes (serialize kd k), (canon kd k, canon vd v)) :: canonMapEntries kd vd rest
termination_by rest => (sizeOf kd + sizeOf vd, 1 + sizeOf rest)
decreasing_by
  all_goals simp_wf
  all_goals try (apply Prod.Lex.right; first | omega | (simp; omega) | simp)
  all_goals
    (apply Prod.Lex.left
     have h1 := one_le_sizeOf_Desc kd
     have h2 := one_le_sizeOf_Desc vd
     first | omega | (simp; omega) | simp)

/-- The decoded mapping of a record: the non-Padding fields in declared
order, each field's value in canonical decoded form. -/
def canonFields : List (List Nat × Desc) → List (PyVal × PyVal) → List (PyVal × PyVal)
  | [], _ => []
  | (name, d) :: rest, kvs =>
    if isPaddingD d then canonFields rest kvs
    else (.str name, canon d ((pyLookup kvs name).getD .none)) :: canonFields rest kvs
termination_by fields _ => (sizeOf fields, 0)
decreasing_by
  all_goals simp_wf
  all_goals (apply Prod.Lex.left; first | omega | (simp; omega) | simp)

end

mutual

/-- The claim's expected round-trip result: the value itself, with every
PubKey payload given as raw 32-byte binary replaced by its text form (the
claim's stated PubKey exception), recursively.  Unlike `canon`, container
order, Bool inputs and Padding entries are left untouched. -/
def pkCanon : Desc → PyVal → PyVal
  | .pubkey, v =>
    match v with
    | .bytes bs => .str (b58Encode bs)
    | _ => v
  | .optional d, v =>
    match v with
    | .none => .none
    | _ => pkCanon d v
  | .array d _, v =>
    match v with
    | .list xs => .list (pkCanonElems d xs)
    | _ => v
  | .vector d, v =>
    match v with
    | .list xs => .list (pkCanonElems d xs)
    | _ => v
  | .set d, v =>
    match v with
    | .set xs => .set (pkCanonElems d xs)
    | _ => v
  | .map kd vd, v =>
    match v with
    | .dict kvs => .dict (pkCanonPairs kd vd kvs)
    | _ => v
  | .record fields _ _, v =>
    match v with
    | .dict kvs => .dict (pkCanonRecord fields kvs)
    | _ => v
  | _, v => v
termination_by d _ => (sizeOf d, 0)
decreasing_by
  all_goals simp_wf
  all_goals (apply Prod.Lex.left; first | omega | (simp; omega) | simp)

def pkCanonElems (d : Desc) : List PyVal → List PyVal
  | [] => []
  | x :: xs => pkCanon d x :: pkCanonElems d xs
termination_by xs => (sizeOf d, 1 + sizeOf xs)
decreasing_by
  all_goals simp_wf
  all_goals try (apply Prod.Lex.right; first | omega | (simp; omega) | simp)
  all_goals (apply Prod.Lex.left; first | omega | (simp; omega) | simp)

def pkCanonPairs (kd vd : Desc) : List (PyVal × PyVal) → List (PyVal × PyVal)
  | [] => []
  | (k, v) :: rest => (pkCanon kd k, pkCanon vd v) :: pkCanonPairs kd vd rest
termination_by rest => (sizeOf kd + sizeOf vd, 1 + sizeOf rest)
decreasing_by
  all_goals simp_wf
  all_goals try (apply Prod.Lex.right; first | omega | (simp; omega) | simp)
  all_goals
    (apply Prod.Lex.left
     have h1 := one_le_sizeOf_Desc kd
     have h2 := one_le_sizeOf_Desc vd
     first | omega | (simp; omega) | simp)

/-- Apply the PubKey text canonicalization under each declared field of a
record's mapping, preserving the mapping's own key order. -/
def pkCanonRecord (fields : List (List Nat × Desc)) : List (PyVal × PyVal) → List (PyVal × PyVal)
  | [] => []
  | (k, v) :: rest =>
    (k,
      match k with
      | .str n =>
        match h : lookupField fields n with
        | some fd => pkCanon fd v
        | Option.none => v
      | _ => v) :: pkCanonRecord fields rest
termination_by kvs => (sizeOf fields, 1 + sizeOf kvs)
decreasing_by
  all_goals simp_wf
  all_goals try (apply Prod.Lex.right; first | omega | (simp; omega) | simp)
  all_goals
    (apply Prod.Lex.left
     have h1 := sizeOf_lookupField h
     first | omega | (simp at h1 ⊢; omega) | simp)

end

/-- Extract the string payloads of a mapping's keys, if every key is a
Python string. -/
def keyStrNames : List (PyVal × PyVal) → Option (List (List Nat))
  | [] => some []
  | (.str n, _) :: rest =>
    match keyStrNames rest with
    | some ks => some (n :: ks)
    | Option.none => Option.none
  | _ => Option.none

mutual

/-- The valid domain of a descriptor: the values its round-trip contract
covers.  Scalars must be of the accepted kind and in range (NaN patterns
are excluded: a float NaN compares unequal to itself); string contents are
unicode scalar values; variable counts and per-entry scratch serializations
must fit the u32 length prefixes; a set's elements (and a map's keys) are
pairwise distinct as decoded Python values with pairwise distinct
serialized bytes, as in a Python set / dict; a record's mapping holds
exactly the declared field names as keys, each with a valid field value. -/
def validB : Desc → PyVal → Bool
  | .uint w, v =>
    match v with
    | .int z => decide (0 ≤ z) && decide (z < ((256 ^ w : Nat) : Int))
    | _ => false
  | .int w, v =>
    match v with
    | .int z => decide (-((256 ^ w / 2 : Nat) : Int) ≤ z) && decide (z < ((256 ^ w / 2 : Nat) : Int))
    | _ => false
  | .f32, v =>
    match v with
    | .f32 bits => decide (bits < 256 ^ 4) && !f32IsNaN bits
    | _ => false
  | .f64, v =>
    match v with
    | .f64 bits => decide (bits < 256 ^ 8) && !f64IsNaN bits
    | _ => false
  | .bool, v => pyIsBool v || pyEq v (.int 0) || pyEq v (.int 1)
  | .string, v =>
    match v with
    | .str cs => cs.all validCodepoint && decide ((utf8Encode cs).length < 256 ^ 4)
    | _ => false
  | .bytes, v =>
    match v with
    | .bytes bs => bs.all (fun b => decide (b < 256)) && decide (bs.length < 256 ^ 4)
    | _ => false
  | .optional d, v =>
    match v with
    | .none => true
    | _ => validB d v
  | .array d n, v =>
    match v with
    | .list xs => decide (xs.length = n) && validElems d xs
    | _ => false
  | .vector d, v =>
    match v with
    | .list xs => decide (xs.length < 256 ^ 4) && validElems d xs
    | _ => false
  | .set d, v =>
    match v with
    | .set xs =>
      decide (xs.length < 256 ^ 4) && validElems d xs &&
      decide ((xs.map (fun x => okBytes (serialize d x))).Nodup) &&
      xs.all (fun x => decide ((okBytes (serialize d x)).length < 256 ^ 4)) &&
      pyAllDistinct (xs.map (canon d))
    | _ => false
  | .map kd vd, v =>
    match v with
    | .dict kvs =>
      decide (kvs.length < 256 ^ 4) && validPairs kd vd kvs &&
      decide ((kvs.map (fun p => okBytes (serialize kd p.1))).Nodup) &&
      kvs.all (fun p => decide ((okBytes (serialize kd p.1)).length < 256 ^ 4) &&
        decide ((okBytes (serialize vd p.2)).length < 256 ^ 4)) &&
      pyAllDistinct (kvs.map (fun p => canon kd p.1))
    | _ => false
  | .pubkey, v =>
    match v with
    | .bytes bs => decide (bs.length = 32) && bs.all (fun b => decide (b < 256))
    | .str cs =>
      match b58Decode cs with
      | some bs => decide (bs.length = 32)
      | Option.none => false
    | _ => false
  | .padding _, v =>
    match v with
    | .none => true
    | _ => false
  | .record fields _ _, v =>
    match v with
    | .dict kvs =>
      (match keyStrNames kvs with
       | some ks => ks.isPerm (fields.map Prod.fst)
       | Option.none => false) &&
      validFields fields kvs
    | _ => false
termination_by d _ => (sizeOf d, 0)
decreasing_by
  all_goals simp_wf
  all_goals (apply Prod.Lex.left; first | omega | (simp; omega) | simp)

def validElems (d : Desc) : List PyVal → Bool
  | [] => true
  | x :: xs => validB d x && validElems d xs
termination_by xs => (sizeOf d, 1 + sizeOf xs)
decreasing_by
  all_goals simp_wf
  all_goals try (apply Prod.Lex.right; first | omega | (simp; omega) | simp)
  all_goals (apply Prod.Lex.left; first | omega | (simp; omega) | simp)

def validPairs (kd vd : Desc) : List (PyVal × PyVal) → Bool
  | [] => true
  | (k, v) :: rest => validB kd k && validB vd v && validPairs kd vd rest
termination_by rest => (sizeOf kd + sizeOf vd, 1 + sizeOf rest)
decreasing_by
  all_goals simp_wf
  all_goals try (apply Prod.Lex.right; first | omega | (simp; omega) | simp)
  all_goals
    (apply Prod.Lex.left
     have h1 := one_le_sizeOf_Desc kd
     have h2 := one_le_sizeOf_Desc vd
     first | omega | (simp; omega) | simp)

def validFields : List (List Nat × Desc) → List (PyVal × PyVal) → Bool
  | [], _ => true
  | (name, d) :: rest, kvs =>
    (match pyLookup kvs name with
     | some v => validB d v
     | Option.none => false) &&
    validFields rest kvs
termination_by fields _ => (sizeOf fields, 0)
decreasing_by
  all_goals simp_wf
  all_goals (apply Prod.Lex.left; first | omega | (simp; omega) | simp)

end

/-! ## The encode / decode entry points (`base.py`) -/

/-- `BorshType.encode`: acquire a buffer, serialize, return exactly the
written byte range. -/
def encode (d : Desc) (v : PyVal) : Except Err (List Nat) := serialize d v

/-- `BorshType.decode`: load the bytes into a buffer and deserialize;
trailing bytes beyond what the type reads are ignored. -/
def decode (d : Desc) (bs : List Nat) : Except Err PyVal :=
  match deserialize d bs with
  | .ok (v, _) => .ok v
  | .error e => .error e

/-- `BorshType.__call__`: positional and keyword arguments together, or
neither, raise `TypeError`; positional arguments dispatch to `decode` of
the first one; keyword arguments dispatch to `encode` of the keyword
mapping.  (`decode` feeds its argument to the buffer's raw byte write, so a
non-bytes positional argument is a `TypeError`.) -/
def borshCall (d : Desc) (args : List PyVal) (kwargs : List (List Nat × PyVal)) :
    Except Err PyVal :=
  match args, kwargs with
  | [], [] => .error .typeError
  | _ :: _, _ :: _ => .error .typeError
  | a :: _, [] =>
    match a with
    | .bytes bs => decode d bs
    | _ => .error .typeError
  | [], kw =>
    match encode d (.dict (kw.map (fun p => (.str p.1, p.2)))) with
    | .ok bs => .ok (.bytes bs)
    | .error e => .error e

/-- `Padding.__init__`: constructing `Padding(inner)` demands a fixed
`inner.sizeof()` and raises `ValueError` otherwise. -/
def mkPadding (d : Desc) : Except Err Desc :=
  match sizeofD d with
  | some _ => .ok (.padding d)
  | Option.none => .error .valueError

/-- A `Schema` built with the `schema` decorator under default arguments:
the decorator defaults `exact_size` to `True` (and `validate` to `False`). -/
def schemaDecorator (fields : List (List Nat × Desc)) : Desc :=
  .record fields false true

/-- A `Schema` constructed directly with default arguments:
`Schema.__init__` defaults `exact_size` to `False`. -/
def schemaDirect (fields : List (List Nat × Desc)) : Desc :=
  .record fields false false

/-! ## Round-trip machinery -/

/-- The round-trip contract of one descriptor: every value of the valid
domain serializes, and deserializing the written bytes in front of any
trailing bytes returns exactly the canonical decoded form and the trailing
bytes. -/
def SerOk (d : Desc) : Prop :=
  ∀ v, validB d v = true →
    ∃ bs, serialize d v = .ok bs ∧
      ∀ rest, deserialize d (bs ++ rest) = .ok (canon d v, rest)

theorem validElems_iff {d : Desc} {xs : List PyVal} :
    validElems d xs = true ↔ ∀ x ∈ xs, validB d x = true := by
  induction xs with
  | nil => simp [validElems]
  | cons x t ih => simp [validElems, ih]

theorem validPairs_iff {kd vd : Desc} {kvs : List (PyVal × PyVal)} :
    validPairs kd vd kvs = true ↔
      ∀ p ∈ kvs, validB kd p.1 = true ∧ validB vd p.2 = true := by
  induction kvs with
  | nil => simp [validPairs]
  | cons p t ih =>
    obtain ⟨k, v⟩ := p
    simp [validPairs, ih]
    try tauto

theorem validFields_iff {fields : List (List Nat × Desc)} {kvs : List (PyVal × PyVal)} :
    validFields fields kvs = true ↔
      ∀ p ∈ fields, ∃ v, pyLookup kvs p.1 = some v ∧ validB p.2 v = true := by
  induction fields with
  | nil => simp [validFields]
  | cons f t ih =>
    obtain ⟨name, d⟩ := f
    rw [validFields]
    simp only [Bool.and_eq_true, ih, List.mem_cons]
    constructor
    · rintro ⟨h1, h2⟩ p hp
      rcases hp with hp | hp
      · subst hp
        split at h1
        next v hv => exact ⟨v, hv, h1⟩
        next => cases h1
      · exact h2 p hp
    · rintro h
      constructor
      · obtain ⟨v, hv, hval⟩ := h (name, d) (Or.inl rfl)
        simp [hv, hval]
      · intro p hp
        exact h p (Or.inr hp)

theorem canonElems_map (d : Desc) (xs : List PyVal) :
    canonElems d xs = xs.map (canon d) := by
  induction xs with
  | nil => simp only [canonElems, List.map_nil]
  | cons x t ih => rw [canonElems, ih]; rfl

theorem canonSetEntries_map (d : Desc) (xs : List PyVal) :
    canonSetEntries d xs = xs.map (fun x => (okBytes (serialize d x), canon d x)) := by
  induction xs with
  | nil => simp only [canonSetEntries, List.map_nil]
  | cons x t ih => rw [canonSetEntries, ih]; rfl

theorem canonMapEntries_map (kd vd : Desc) (kvs : List (PyVal × PyVal)) :
    canonMapEntries kd vd kvs =
      kvs.map (fun p => (okBytes (serialize kd p.1), (canon kd p.1, canon vd p.2))) := by
  induction kvs with
  | nil => simp only [canonMapEntries, List.map_nil]
  | cons p t ih =>
    obtain ⟨k, v⟩ := p
    rw [canonMapEntries, ih]
    rfl

theorem pkCanonElems_map (d : Desc) (xs : List PyVal) :
    pkCanonElems d xs = xs.map (pkCanon d) := by
  induction xs with
  | nil => simp only [pkCanonElems, List.map_nil]
  | cons x t ih => rw [pkCanonElems, ih]; rfl

theorem pkCanonPairs_map (kd vd : Desc) (kvs : List (PyVal × PyVal)) :
    pkCanonPairs kd vd kvs = kvs.map (fun p => (pkCanon kd p.1, pkCanon vd p.2)) := by
  induction kvs with
  | nil => simp only [pkCanonPairs, List.map_nil]
  | cons p t ih =>
    obtain ⟨k, v⟩ := p
    rw [pkCanonPairs, ih]
    rfl

theorem serializeElems_ok {d : Desc} (hd : SerOk d) :
    ∀ {xs : List PyVal}, validElems d xs = true →
      ∃ bs, serializeElems d xs = .ok bs ∧
        ∀ rest, deserializeCount d xs.length (bs ++ rest) = .ok (canonElems d xs, rest) := by
  intro xs
  induction xs with
  | nil =>
    intro _
    refine ⟨[], by simp only [serializeElems], fun rest => ?_⟩
    show deserializeCount d 0 rest = .ok (canonElems d [], rest)
    simp only [deserializeCount, canonElems]
  | cons x t ih =>
    intro hv
    rw [validElems, Bool.and_eq_true] at hv
    obtain ⟨b1, hs1, hd1⟩ := hd x hv.1
    obtain ⟨b2, hs2, hd2⟩ := ih hv.2
    refine ⟨b1 ++ b2, ?_, ?_⟩
    · rw [serializeElems, hs1, hs2]
    · intro rest
      show deserializeCount d (t.length + 1) ((b1 ++ b2) ++ rest) = _
      rw [deserializeCount, List.append_assoc, hd1]
      dsimp only
      rw [hd2]
      dsimp only
      rw [canonElems]

theorem serializeSetElems_ok {d : Desc} (hd : SerOk d) :
    ∀ {xs : List PyVal}, validElems d xs = true →
      serializeSetElems d xs = .ok (xs.map (fun x => okBytes (serialize d x))) := by
  intro xs
  induction xs with
  | nil => intro _; simp only [serializeSetElems, List.map_nil]
  | cons x t ih =>
    intro hv
    rw [validElems, Bool.and_eq_true] at hv
    obtain ⟨b1, hs1, _⟩ := hd x hv.1
    rw [serializeSetElems, hs1, ih hv.2]
    simp [okBytes, hs1]

theorem serializeMapPairs_ok {kd vd : Desc} (hk : SerOk kd) (hv : SerOk vd) :
    ∀ {kvs : List (PyVal × PyVal)}, validPairs kd vd kvs = true →
      serializeMapPairs kd vd kvs =
        .ok (kvs.map (fun p => (okBytes (serialize kd p.1), okBytes (serialize vd p.2)))) := by
  intro kvs
  induction kvs with
  | nil => intro _; simp only [serializeMapPairs, List.map_nil]
  | cons p t ih =>
    obtain ⟨k, v⟩ := p
    intro hval
    rw [validPairs, Bool.and_eq_true, Bool.and_eq_true] at hval
    obtain ⟨⟨hvk, hvv⟩, hvt⟩ := hval
    obtain ⟨bk, hsk, _⟩ := hk k hvk
    obtain ⟨bv, hsv, _⟩ := hv v hvv
    rw [serializeMapPairs, hsk, hsv, ih hvt]
    simp [okBytes, hsk, hsv]

theorem writeEntriesVec_ok :
    ∀ {l : List (List Nat)}, (∀ e ∈ l, e.length < 256 ^ 4) →
      ∃ bs, writeEntriesVec l = .ok bs := by
  intro l
  induction l with
  | nil => intro _; exact ⟨[], rfl⟩
  | cons e t ih =>
    intro h
    obtain ⟨bs, hbs⟩ := ih (fun x hx => h x (by simp [hx]))
    refine ⟨leBytes 4 e.length ++ e ++ bs, ?_⟩
    rw [writeEntriesVec, writeVec_length_ok (h e (by simp)), hbs]

theorem writePairsVec_ok :
    ∀ {l : List (List Nat × List Nat)},
      (∀ p ∈ l, p.1.length < 256 ^ 4 ∧ p.2.length < 256 ^ 4) →
      ∃ bs, writePairsVec l = .ok bs := by
  intro l
  induction l with
  | nil => intro _; exact ⟨[], rfl⟩
  | cons p t ih =>
    obtain ⟨k, v⟩ := p
    intro h
    obtain ⟨bs, hbs⟩ := ih (fun x hx => h x (by simp [hx]))
    have hk := (h (k, v) (by simp)).1
    have hv := (h (k, v) (by simp)).2
    refine ⟨(leBytes 4 k.length ++ k) ++ (leBytes 4 v.length ++ v) ++ bs, ?_⟩
    rw [writePairsVec, writeVec_length_ok hk, writeVec_length_ok hv, hbs]

theorem deserializeEntries_map {d : Desc} :
    ∀ {ps : List (List Nat × PyVal)},
      (∀ p ∈ ps, deserialize d p.1 = .ok (p.2, [])) →
      deserializeEntries d (ps.map Prod.fst) = .ok (ps.map Prod.snd) := by
  intro ps
  induction ps with
  | nil => intro _; simp only [deserializeEntries, List.map_nil]
  | cons p t ih =>
    obtain ⟨e, v⟩ := p
    intro h
    rw [List.map_cons, deserializeEntries, h (e, v) (by simp)]
    dsimp only
    rw [ih (fun x hx => h x (by simp [hx]))]
    rfl

theorem deserializePairs_map {kd vd : Desc} :
    ∀ {qs : List (List Nat × (List Nat × (PyVal × PyVal)))},
      (∀ q ∈ qs, deserialize kd q.1 = .ok (q.2.2.1, []) ∧
        deserialize vd q.2.1 = .ok (q.2.2.2, [])) →
      deserializePairs kd vd (qs.map (fun q => (q.1, q.2.1))) = .ok (qs.map (fun q => q.2.2)) := by
  intro qs
  induction qs with
  | nil => intro _; simp only [deserializePairs, List.map_nil]
  | cons q t ih =>
    obtain ⟨kb, vb, k, v⟩ := q
    intro h
    rw [List.map_cons, deserializePairs, (h (kb, vb, k, v) (by simp)).1]
    dsimp only
    rw [(h (kb, vb, k, v) (by simp)).2]
    dsimp only
    rw [ih (fun x hx => h x (by simp [hx]))]
    rfl

theorem pyEq_list_iff {xs ys : List PyVal} :
    pyEq (.list xs) (.list ys) = true ↔
      xs.length = ys.length ∧ ∀ p ∈ xs.zip ys, pyEq p.1 p.2 = true := by
  rw [pyEq]
  simp only [Bool.and_eq_true, beq_iff_eq, List.all_eq_true]
  constructor
  · rintro ⟨h1, h2⟩
    exact ⟨h1, fun p hp => h2 ⟨p, hp⟩ (List.mem_attach _ _)⟩
  · rintro ⟨h1, h2⟩
    exact ⟨h1, fun p _ => h2 p.1 p.2⟩

theorem pyEq_set_iff {xs ys : List PyVal} :
    pyEq (.set xs) (.set ys) = true ↔
      (∀ x ∈ xs, ∃ y ∈ ys, pyEq x y = true) ∧ (∀ y ∈ ys, ∃ x ∈ xs, pyEq x y = true) := by
  rw [pyEq]
  simp only [Bool.and_eq_true, List.all_eq_true, List.any_eq_true]
  constructor
  · rintro ⟨h1, h2⟩
    refine ⟨fun x hx => h1 ⟨x, hx⟩ (List.mem_attach _ _), fun y hy => ?_⟩
    obtain ⟨x, _, hx2⟩ := h2 y hy
    exact ⟨x.1, x.2, hx2⟩
  · rintro ⟨h1, h2⟩
    refine ⟨fun x _ => h1 x.1 x.2, fun y hy => ?_⟩
    obtain ⟨x, hx1, hx2⟩ := h2 y hy
    exact ⟨⟨x, hx1⟩, List.mem_attach _ _, hx2⟩

theorem pyEq_dict_iff {xs ys : List (PyVal × PyVal)} :
    pyEq (.dict xs) (.dict ys) = true ↔
      xs.length = ys.length ∧
      (∀ p ∈ xs, ∃ q ∈ ys, pyEq p.1 q.1 = true ∧ pyEq p.2 q.2 = true) ∧
      (∀ q ∈ ys, ∃ p ∈ xs, pyEq p.1 q.1 = true ∧ pyEq p.2 q.2 = true) := by
  rw [pyEq]
  simp only [Bool.and_eq_true, beq_iff_eq, List.all_eq_true, List.any_eq_true]
  constructor
  · rintro ⟨⟨h0, h1⟩, h2⟩
    refine ⟨h0, fun p hp => ?_, fun q hq => ?_⟩
    · obtain ⟨q, hq1, hq2⟩ := h1 ⟨p, hp⟩ (List.mem_attach _ _)
      exact ⟨q, hq1, hq2⟩
    · obtain ⟨p, _, hp2⟩ := h2 q hq
      exact ⟨p.1, p.2, hp2⟩
  · rintro ⟨h0, h1, h2⟩
    refine ⟨⟨h0, fun p _ => ?_⟩, fun q hq => ?_⟩
    · obtain ⟨q, hq1, hq2, hq3⟩ := h1 p.1 p.2
      exact ⟨q, hq1, hq2, hq3⟩
    · obtain ⟨p, hp1, hp2, hp3⟩ := h2 q hq
      exact ⟨⟨p, hp1⟩, List.mem_attach _ _, hp2, hp3⟩

theorem pyAllDistinct_iff {l : List PyVal} :
    pyAllDistinct l = true ↔
      l.Pairwise (fun x y => pyEq x y = false ∧ pyEq y x = false) := by
  induction l with
  | nil => simp [pyAllDistinct]
  | cons x t ih =>
    simp only [pyAllDistinct, Bool.and_eq_true, List.all_eq_true, Bool.not_eq_true',
      List.pairwise_cons, ih]

theorem pyAllDistinct_perm {l1 l2 : List PyVal} (hp : l1.Perm l2)
    (h : pyAllDistinct l1 = true) : pyAllDistinct l2 = true := by
  rw [pyAllDistinct_iff] at h ⊢
  exact (hp.pairwise_iff (fun h => ⟨h.2, h.1⟩)).mp h

theorem pySetInsert_fresh {acc : List PyVal} {x : PyVal}
    (h : ∀ y ∈ acc, pyEq y x = false) : pySetInsert acc x = acc ++ [x] := by
  unfold pySetInsert
  rw [if_neg]
  simp only [List.any_eq_true, not_exists]
  intro y
  simp only [not_and]
  intro hy
  rw [h y hy]
  simp

theorem buildPySet_aux_id :
    ∀ (l acc : List PyVal),
      (∀ x ∈ l, ∀ y ∈ acc, pyEq y x = false) →
      l.Pairwise (fun x y => pyEq x y = false ∧ pyEq y x = false) →
      l.foldl pySetInsert acc = acc ++ l := by
  intro l
  induction l with
  | nil => intro acc _ _; simp
  | cons x t ih =>
    intro acc hfresh hpw
    rw [List.foldl_cons, pySetInsert_fresh (hfresh x (by simp))]
    rw [List.pairwise_cons] at hpw
    rw [ih (acc ++ [x]) ?_ hpw.2]
    · simp
    · intro z hz y hy
      rcases List.mem_append.mp hy with hy | hy
      · exact hfresh z (by simp [hz]) y hy
      · rw [List.mem_singleton] at hy
        subst hy
        exact (hpw.1 z hz).1

theorem buildPySet_distinct_id {l : List PyVal} (h : pyAllDistinct l = true) :
    buildPySet l = l := by
  rw [buildPySet, buildPySet_aux_id l [] (by simp) (pyAllDistinct_iff.mp h)]
  simp

theorem pyDictInsert_fresh {acc : List (PyVal × PyVal)} {k v : PyVal}
    (h : ∀ p ∈ acc, pyEq p.1 k = false) : pyDictInsert acc k v = acc ++ [(k, v)] := by
  induction acc with
  | nil => rfl
  | cons p t ih =>
    obtain ⟨k', v'⟩ := p
    rw [pyDictInsert]
    rw [if_neg (by rw [h (k', v') (by simp)]; simp)]
    rw [ih (fun q hq => h q (by simp [hq]))]
    simp

theorem buildPyDict_aux_id :
    ∀ (l acc : List (PyVal × PyVal)),
      (∀ p ∈ l, ∀ q ∈ acc, pyEq q.1 p.1 = false) →
      (l.map Prod.fst).Pairwise (fun a b => pyEq a b = false ∧ pyEq b a = false) →
      l.foldl (fun acc p => pyDictInsert acc p.1 p.2) acc = acc ++ l := by
  intro l
  induction l with
  | nil => intro acc _ _; simp
  | cons p t ih =>
    obtain ⟨k, v⟩ := p
    intro acc hfresh hpw
    rw [List.foldl_cons]
    rw [show pyDictInsert acc (k, v).1 (k, v).2 = acc ++ [(k, v)] from
      pyDictInsert_fresh (hfresh (k, v) (by simp))]
    rw [List.map_cons, List.pairwise_cons] at hpw
    rw [ih (acc ++ [(k, v)]) ?_ hpw.2]
    · simp
    · intro z hz q hq
      rcases List.mem_append.mp hq with hq | hq
      · exact hfresh z (by simp [hz]) q hq
      · rw [List.mem_singleton] at hq
        subst hq
        exact (hpw.1 z.1 (List.mem_map_of_mem Prod.fst hz)).1

theorem buildPyDict_distinct_id {l : List (PyVal × PyVal)}
    (h : pyAllDistinct (l.map Prod.fst) = true) : buildPyDict l = l := by
  rw [buildPyDict, buildPyDict_aux_id l [] (by simp) (pyAllDistinct_iff.mp h)]
  simp

theorem pyDictDelete_append_fresh {acc : List (PyVal × PyVal)} {k v : PyVal}
    (hk : pyEq k k = true) (h : ∀ p ∈ acc, pyEq p.1 k = false) :
    pyDictDelete (acc ++ [(k, v)]) k = acc := by
  induction acc with
  | nil => simp [pyDictDelete, hk]
  | cons p t ih =>
    obtain ⟨k', v'⟩ := p
    rw [List.cons_append, pyDictDelete]
    rw [if_neg (by rw [h (k', v') (by simp)]; simp)]
    rw [ih (fun q hq => h q (by simp [hq]))]

theorem sortByKey_map_proj {α β : Type} (key : α → List Nat) (kf : β → List Nat)
    (f : α → β) (hkey : ∀ a, kf (f a) = key a) (l : List α)
    (hnd : (l.map key).Nodup) :
    (sortByKey key l).map f = sortByKey kf (l.map f) := by
  apply sorted_key_perm_eq kf
  · exact ((perm_sortByKey key l).map f).trans (perm_sortByKey kf (l.map f)).symm
  · rw [SortedByKey, List.pairwise_map]
    exact (sorted_sortByKey key l).imp (fun h => by rw [hkey, hkey]; exact h)
  · exact sorted_sortByKey kf (l.map f)
  · rw [List.map_map]
    have he : (sortByKey key l).map (kf ∘ f) = (sortByKey key l).map key :=
      List.map_congr_left (fun a _ => hkey a)
    rw [he]
    exact (((perm_sortByKey key l).map key).symm.nodup_iff).mp hnd

theorem pyEq_str (a b : List Nat) : pyEq (.str a) (.str b) = (a == b) := by
  simp [pyEq]

theorem keyStrNames_map {kvs : List (PyVal × PyVal)} {ks : List (List Nat)}
    (h : keyStrNames kvs = some ks) : kvs.map Prod.fst = ks.map PyVal.str := by
  induction kvs generalizing ks with
  | nil => cases h; rfl
  | cons p t ih =>
    match p, h with
    | (.str n, v), h =>
      rw [keyStrNames] at h
      split at h
      next ks' hks =>
        cases h
        rw [List.map_cons, ih hks]
        rfl
      next => cases h

theorem missingKeys_nil {fields : List (List Nat × Desc)} {kvs : List (PyVal × PyVal)}
    {ks : List (List Nat)} (hk : keyStrNames kvs = some ks)
    (hperm : ks.Perm (fields.map Prod.fst)) : missingKeys fields kvs = [] := by
  rw [missingKeys, List.filter_eq_nil_iff]
  intro n hn
  have hn' : n ∈ ks := hperm.symm.subset hn
  have : (PyVal.str n) ∈ kvs.map Prod.fst := by
    rw [keyStrNames_map hk]
    exact List.mem_map_of_mem PyVal.str hn'
  obtain ⟨p, hp, hp2⟩ := List.mem_map.mp this
  have hany : (kvs.any fun p => pyEq p.1 (.str n)) = true := by
    rw [List.any_eq_true]
    exact ⟨p, hp, by rw [hp2, pyEq_str]; simp⟩
  simp [hany]

theorem extraKeys_nil {fields : List (List Nat × Desc)} {kvs : List (PyVal × PyVal)}
    {ks : List (List Nat)} (hk : keyStrNames kvs = some ks)
    (hperm : ks.Perm (fields.map Prod.fst)) : extraKeys fields kvs = [] := by
  rw [extraKeys, List.filter_eq_nil_iff]
  intro k hkm
  rw [keyStrNames_map hk] at hkm
  obtain ⟨n, hn, hn2⟩ := List.mem_map.mp hkm
  have hn' : n ∈ fields.map Prod.fst := hperm.subset hn
  obtain ⟨f, hf, hf2⟩ := List.mem_map.mp hn'
  have hany : (fields.any fun f => pyEq k (.str f.1)) = true := by
    rw [List.any_eq_true]
    exact ⟨f, hf, by rw [← hn2, hf2, pyEq_str]; simp⟩
  simp [hany]

theorem serializeFields_ok {fields : List (List Nat × Desc)} {kvs : List (PyVal × PyVal)}
    (H : ∀ p ∈ fields, SerOk p.2)
    (hnd : (fields.map Prod.fst).Nodup)
    (hv : validFields fields kvs = true) :
    ∃ bs, serializeFields fields kvs = .ok bs ∧
      ∀ rest acc, (∀ q ∈ acc, ∀ p ∈ fields, pyEq q.1 (.str p.1) = false) →
        deserializeFields fields acc (bs ++ rest) = .ok (acc ++ canonFields fields kvs, rest) := by
  induction fields with
  | nil =>
    refine ⟨[], by simp only [serializeFields], fun rest acc _ => ?_⟩
    simp only [deserializeFields, canonFields, List.append_nil, List.nil_append]
  | cons f restf ih =>
    obtain ⟨name, d⟩ := f
    obtain ⟨v, hlook, hval⟩ := (validFields_iff.mp hv) (name, d) (by simp)
    have hso : SerOk d := H (name, d) (by simp)
    obtain ⟨b1, hs1, hd1⟩ := hso v hval
    rw [List.map_cons, List.nodup_cons] at hnd
    obtain ⟨bs2, hs2, hd2⟩ := ih (fun p hp => H p (by simp [hp])) hnd.2
      (validFields_iff.mpr (fun p hp => (validFields_iff.mp hv) p (by simp [hp])))
    refine ⟨b1 ++ bs2, ?_, ?_⟩
    · rw [serializeFields, hlook]
      dsimp only
      rw [hs1]
      dsimp only
      rw [hs2]
    · intro rest acc hacc
      rw [deserializeFields, List.append_assoc, hd1]
      dsimp only
      have hfresh : ∀ q ∈ acc, pyEq q.1 (PyVal.str name) = false :=
        fun q hq => hacc q hq (name, d) (by simp)
      by_cases hpad : isPaddingD d = true
      · rw [if_pos hpad]
        have hcd : canon d v = PyVal.none := by
          match d, hpad with
          | .padding pd, _ => rw [canon]
        rw [hcd, pyDictInsert_fresh hfresh,
          pyDictDelete_append_fresh (by rw [pyEq_str]; simp) hfresh]
        rw [hd2 rest acc (fun q hq p hp => hacc q hq p (by simp [hp]))]
        have : canonFields ((name, d) :: restf) kvs = canonFields restf kvs := by
          rw [canonFields, if_pos hpad]
        rw [this]
      · rw [if_neg hpad, pyDictInsert_fresh hfresh]
        rw [hd2 rest (acc ++ [(PyVal.str name, canon d v)]) ?_]
        · have : canonFields ((name, d) :: restf) kvs =
              (PyVal.str name, canon d ((pyLookup kvs name).getD .none)) :: canonFields restf kvs := by
            rw [canonFields, if_neg hpad]
          rw [this, hlook]
          simp
        · intro q hq p hp
          rcases List.mem_append.mp hq with hq | hq
          · exact hacc q hq p (by simp [hp])
          · rw [List.mem_singleton] at hq
            subst hq
            rw [pyEq_str]
            simp only [beq_eq_false_iff_ne, ne_eq]
            intro he
            apply hnd.1
            show name ∈ List.map Prod.fst restf
            rw [he]
            exact List.mem_map_of_mem Prod.fst hp

theorem sizeOf_mem_fields {fields : List (List Nat × Desc)} {p : List Nat × Desc}
    (h : p ∈ fields) : sizeOf p.2 < sizeOf fields := by
  induction fields with
  | nil => cases h
  | cons q t ih =>
    rcases List.mem_cons.mp h with h | h
    · subst h
      obtain ⟨a, b⟩ := p
      simp
      omega
    · have := ih h
      simp
      omega

theorem wfFields_iff {fields : List (List Nat × Desc)} :
    wfFields fields = true ↔ ∀ p ∈ fields, wf p.2 = true := by
  induction fields with
  | nil => simp [wfFields]
  | cons p t ih =>
    obtain ⟨n, d⟩ := p
    simp [wfFields, ih]

theorem serialize_optional_ne {d : Desc} {v : PyVal} (hne : v ≠ .none) :
    serialize (.optional d) v =
      match serialize d v with
      | .ok bs => .ok (writeBool true ++ bs)
      | .error e => .error e := by
  cases v
  case none => exact absurd rfl hne
  all_goals rw [serialize] <;> simp

theorem validB_optional_ne {d : Desc} {v : PyVal} (hne : v ≠ .none) :
    validB (.optional d) v = validB d v := by
  cases v
  case none => exact absurd rfl hne
  all_goals rw [validB] <;> simp

theorem canon_optional_ne {d : Desc} {v : PyVal} (hne : v ≠ .none) :
    canon (.optional d) v = canon d v := by
  cases v
  case none => exact absurd rfl hne
  all_goals rw [canon] <;> simp

theorem pkCanon_optional_ne {d : Desc} {v : PyVal} (hne : v ≠ .none) :
    pkCanon (.optional d) v = pkCanon d v := by
  cases v
  case none => exact absurd rfl hne
  all_goals rw [pkCanon] <;> simp

theorem serOk_uint (w : Nat) : SerOk (.uint w) := by
  intro v hval
  cases v
  case int z =>
    simp only [validB, Bool.and_eq_true, decide_eq_true_eq] at hval
    obtain ⟨h0, h1⟩ := hval
    have hpow : ((256 ^ w : Nat) : Int) = (256 : Int) ^ w := by push_cast; ring
    have hlt : z.toNat < 256 ^ w := by omega
    refine ⟨leBytes w z.toNat, ?_, ?_⟩
    · simp only [serialize]
      rw [if_pos ⟨h0, h1⟩]
    · intro rest
      rw [deserialize, readN_exact (length_leBytes w z.toNat)]
      dsimp only
      rw [leDecode_leBytes hlt, canon, Int.toNat_of_nonneg h0]
  all_goals simp [validB] at hval

theorem serOk_int (w : Nat) : SerOk (.int w) := by
  intro v hval
  cases v
  case int z =>
    simp only [validB, Bool.and_eq_true, decide_eq_true_eq] at hval
    obtain ⟨h0, h1⟩ := hval
    rcases Nat.eq_zero_or_pos w with hw | hw
    · subst hw
      have hz : ((256 ^ 0 / 2 : Nat) : Int) = 0 := by norm_num
      rw [hz] at h0 h1
      omega
    · refine ⟨leBytes w (toTwos w z), ?_, ?_⟩
      · simp only [serialize]
        rw [if_pos ⟨h0, h1⟩]
      · intro rest
        rw [deserialize, readN_exact (length_leBytes w _)]
        dsimp only
        rw [leDecode_leBytes (toTwos_lt hw h0 h1), fromTwos_toTwos hw h0 h1, canon]
  all_goals simp [validB] at hval

theorem serOk_f32 : SerOk .f32 := by
  intro v hval
  cases v
  case f32 bits =>
    simp only [validB, Bool.and_eq_true, decide_eq_true_eq] at hval
    refine ⟨leBytes 4 bits, by simp only [serialize], ?_⟩
    intro rest
    rw [deserialize, readN_exact (length_leBytes 4 bits)]
    dsimp only
    rw [leDecode_leBytes hval.1, canon]
  all_goals simp [validB] at hval

theorem serOk_f64 : SerOk .f64 := by
  intro v hval
  cases v
  case f64 bits =>
    simp only [validB, Bool.and_eq_true, decide_eq_true_eq] at hval
    refine ⟨leBytes 8 bits, by simp only [serialize], ?_⟩
    intro rest
    rw [deserialize, readN_exact (length_leBytes 8 bits)]
    dsimp only
    rw [leDecode_leBytes hval.1, canon]
  all_goals simp [validB] at hval

theorem serOk_bool : SerOk .bool := by
  intro v hval
  rw [validB] at hval
  refine ⟨writeBool (boolArg v), ?_, ?_⟩
  · simp only [serialize]
    rw [if_pos]
    simpa [Bool.or_eq_true] using hval
  · intro rest
    rw [deserialize, readBool_writeBool]
    dsimp only
    rw [canon]

theorem serOk_string : SerOk .string := by
  intro v hval
  cases v
  case str cs =>
    simp only [validB, Bool.and_eq_true, decide_eq_true_eq] at hval
    obtain ⟨hcp, hlen⟩ := hval
    refine ⟨leBytes 4 (utf8Encode cs).length ++ utf8Encode cs, ?_, ?_⟩
    · simp only [serialize]
      exact writeVec_length_ok hlen
    · intro rest
      rw [deserialize, readVec_writeVec (writeVec_length_ok hlen)]
      dsimp only
      rw [utf8Decode_encode hcp, canon]
  all_goals simp [validB] at hval

theorem serOk_bytes : SerOk .bytes := by
  intro v hval
  cases v
  case bytes bs =>
    simp only [validB, Bool.and_eq_true, decide_eq_true_eq] at hval
    refine ⟨leBytes 4 bs.length ++ bs, ?_, ?_⟩
    · simp only [serialize]
      exact writeVec_length_ok hval.2
    · intro rest
      rw [deserialize, readVec_writeVec (writeVec_length_ok hval.2)]
      dsimp only
      rw [canon]
  all_goals simp [validB] at hval

theorem serOk_pubkey : SerOk .pubkey := by
  intro v hval
  cases v
  case bytes bs =>
    simp only [validB, Bool.and_eq_true, decide_eq_true_eq] at hval
    refine ⟨bs, ?_, ?_⟩
    · simp only [serialize]
      rw [if_pos hval.1]
    · intro rest
      rw [deserialize, readN_exact hval.1]
      dsimp only
      rw [canon]
  case str cs =>
    simp only [validB] at hval
    split at hval
    next bs hbs =>
      simp only [decide_eq_true_eq] at hval
      refine ⟨bs, ?_, ?_⟩
      · simp only [serialize]
        rw [hbs]
        dsimp only
        rw [if_pos hval]
      · intro rest
        rw [deserialize, readN_exact hval]
        dsimp only
        have hc : canon .pubkey (.str cs) = .str cs := by rw [canon] <;> simp
        rw [hc, b58Encode_decode hbs]
    next => cases hval
  all_goals simp [validB] at hval

theorem serOk_padding {d : Desc} (hwf : wf (.padding d) = true) : SerOk (.padding d) := by
  intro v hval
  simp only [wf, Bool.and_eq_true, Option.isSome_iff_exists] at hwf
  obtain ⟨⟨n, hn⟩, _⟩ := hwf
  refine ⟨List.replicate n 0, ?_, ?_⟩
  · simp only [serialize, hn, Option.getD_some]
  · intro rest
    rw [deserialize, hn]
    dsimp only [Option.getD_some]
    rw [readN_exact (List.length_replicate n 0)]
    dsimp only
    rw [canon]

theorem serOk_optional {d : Desc} (hd : SerOk d) : SerOk (.optional d) := by
  intro v hval
  by_cases hne : v = .none
  · subst hne
    refine ⟨writeBool false, by rw [serialize], ?_⟩
    intro rest
    rw [deserialize, readBool_writeBool]
    dsimp only
    rw [if_neg (by simp), canon]
  · rw [validB_optional_ne hne] at hval
    obtain ⟨b1, hs1, hd1⟩ := hd v hval
    refine ⟨writeBool true ++ b1, ?_, ?_⟩
    · rw [serialize_optional_ne hne, hs1]
    · intro rest
      rw [deserialize, List.append_assoc, readBool_writeBool]
      dsimp only
      rw [if_pos rfl, hd1]
      dsimp only
      rw [canon_optional_ne hne]

theorem serOk_array {d : Desc} (hd : SerOk d) (n : Nat) : SerOk (.array d n) := by
  intro v hval
  cases v
  case list xs =>
    simp only [validB, Bool.and_eq_true, decide_eq_true_eq] at hval
    obtain ⟨hlen, helems⟩ := hval
    obtain ⟨bs, hs, hdes⟩ := serializeElems_ok hd helems
    refine ⟨bs, ?_, ?_⟩
    · simp only [serialize]
      rw [if_neg (by omega), hs]
    · intro rest
      rw [deserialize, ← hlen, hdes rest]
      dsimp only
      rw [canon, canonElems_map]
  all_goals simp [validB] at hval

theorem serOk_vector {d : Desc} (hd : SerOk d) : SerOk (.vector d) := by
  intro v hval
  cases v
  case list xs =>
    simp only [validB, Bool.and_eq_true, decide_eq_true_eq] at hval
    obtain ⟨hlen, helems⟩ := hval
    obtain ⟨bs, hs, hdes⟩ := serializeElems_ok hd helems
    refine ⟨leBytes 4 xs.length ++ bs, ?_, ?_⟩
    · simp only [serialize]
      rw [if_pos hlen, hs]
    · intro rest
      rw [deserialize, List.append_assoc, readN_exact (length_leBytes 4 xs.length)]
      dsimp only
      rw [leDecode_leBytes hlen, hdes rest]
      dsimp only
      rw [canon, canonElems_map]
  all_goals simp [validB] at hval

theorem serOk_set {d : Desc} (hd : SerOk d) : SerOk (.set d) := by
  intro v hval
  cases v
  case set xs =>
    simp only [validB, Bool.and_eq_true, decide_eq_true_eq, List.all_eq_true] at hval
    obtain ⟨⟨⟨⟨hlen, helems⟩, hndb⟩, hblen⟩, hdist⟩ := hval
    have hents := serializeSetElems_ok hd helems
    have hbuild : buildSet (xs.map (fun x => okBytes (serialize d x))) =
        xs.map (fun x => okBytes (serialize d x)) := buildSet_nodup_id hndb
    have hsortlen : (sortByKey id (xs.map fun x => okBytes (serialize d x))).length
        = xs.length := by
      rw [(perm_sortByKey id _).length_eq, List.length_map]
    obtain ⟨ebs, hebs⟩ := writeEntriesVec_ok
      (l := sortByKey id (xs.map fun x => okBytes (serialize d x)))
      (fun e he => by
        have : e ∈ xs.map fun x => okBytes (serialize d x) :=
          (perm_sortByKey id _).subset he
        obtain ⟨x, hx, hex⟩ := List.mem_map.mp this
        subst hex
        exact hblen x hx)
    refine ⟨leBytes 4 xs.length ++ ebs, ?_, ?_⟩
    · simp only [serialize]
      rw [hents]
      dsimp only
      rw [writeHashset, hbuild, if_pos (by rw [List.length_map]; exact hlen), hebs]
      dsimp only
      rw [List.length_map]
    · intro rest
      rw [deserialize, readHashset, List.append_assoc,
        readN_exact (length_leBytes 4 xs.length)]
      dsimp only
      rw [leDecode_leBytes hlen, ← hsortlen, readEntriesVec_write hebs rest]
      dsimp only
      have hproj : sortByKey id (xs.map fun x => okBytes (serialize d x)) =
          (sortByKey Prod.fst (canonSetEntries d xs)).map Prod.fst := by
        rw [canonSetEntries_map]
        rw [sortByKey_map_proj Prod.fst id Prod.fst (fun a => rfl) _ ?_]
        · rw [List.map_map]
          rfl
        · rw [List.map_map]
          exact hndb
      rw [hproj, deserializeEntries_map ?_]
      · dsimp only
        rw [canon]
      · intro p hp
        have hp' : p ∈ canonSetEntries d xs := (perm_sortByKey Prod.fst _).subset hp
        rw [canonSetEntries_map] at hp'
        obtain ⟨x, hx, hpx⟩ := List.mem_map.mp hp'
        obtain ⟨b1, hs1, hd1⟩ := hd x (validElems_iff.mp helems x hx)
        subst hpx
        dsimp only
        rw [hs1, okBytes]
        have := hd1 []
        rw [List.append_nil] at this
        exact this
  all_goals simp [validB] at hval

theorem perm_cons_erase_beq {α : Type} [BEq α] [LawfulBEq α] {a : α} :
    ∀ {l : List α}, a ∈ l → l.Perm (a :: l.erase a) := by
  intro l
  induction l with
  | nil => intro h; cases h
  | cons b t ih =>
    intro h
    rw [List.erase_cons]
    by_cases hba : (b == a) = true
    · rw [if_pos hba]
      rw [eq_of_beq hba]
    · rw [if_neg hba]
      have hat : a ∈ t := by
        cases List.mem_cons.mp h with
        | inl he => exact absurd (by simp [he]) hba
        | inr hm => exact hm
      exact (List.Perm.cons b (ih hat)).trans (List.Perm.swap a b _)

theorem isPerm_perm {α : Type} [BEq α] [LawfulBEq α] :
    ∀ {l₁ l₂ : List α}, l₁.isPerm l₂ = true → l₁.Perm l₂ := by
  intro l₁
  induction l₁ with
  | nil =>
    intro l₂ h
    rw [List.isPerm, List.isEmpty_iff] at h
    rw [h]
  | cons a t ih =>
    intro l₂ h
    rw [List.isPerm, Bool.and_eq_true] at h
    obtain ⟨hc, hp⟩ := h
    have hmem : a ∈ l₂ := by simpa using hc
    exact (List.Perm.cons a (ih hp)).trans (perm_cons_erase_beq hmem).symm

theorem serOk_map {kd vd : Desc} (hk : SerOk kd) (hv : SerOk vd) : SerOk (.map kd vd) := by
  intro v hval
  cases v
  case dict kvs =>
    simp only [validB, Bool.and_eq_true, decide_eq_true_eq, List.all_eq_true] at hval
    obtain ⟨⟨⟨⟨hlen, hpairs⟩, hndb⟩, hblen⟩, hdist⟩ := hval
    have hvp := validPairs_iff.mp hpairs
    have hraw := serializeMapPairs_ok hk hv hpairs
    have hndE : ((kvs.map fun p =>
        (okBytes (serialize kd p.1),
          (okBytes (serialize vd p.2), (canon kd p.1, canon vd p.2)))).map Prod.fst).Nodup := by
      rw [List.map_map]
      exact hndb
    have hndraw : ((kvs.map fun p =>
        (okBytes (serialize kd p.1), okBytes (serialize vd p.2))).map Prod.fst).Nodup := by
      rw [List.map_map]
      exact hndb
    have hbuild := buildDict_nodup_id hndraw
    obtain ⟨pbs, hpbs⟩ := writePairsVec_ok
      (l := sortByKey Prod.fst (kvs.map fun p =>
        (okBytes (serialize kd p.1), okBytes (serialize vd p.2))))
      (fun q hq => by
        have hq' : q ∈ kvs.map fun p =>
            (okBytes (serialize kd p.1), okBytes (serialize vd p.2)) :=
          (perm_sortByKey Prod.fst _).subset hq
        obtain ⟨p, hp, hqp⟩ := List.mem_map.mp hq'
        subst hqp
        exact hblen p hp)
    have hsortlen : (sortByKey Prod.fst (kvs.map fun p =>
        (okBytes (serialize kd p.1), okBytes (serialize vd p.2)))).length = kvs.length := by
      rw [(perm_sortByKey Prod.fst _).length_eq, List.length_map]
    refine ⟨leBytes 4 kvs.length ++ pbs, ?_, ?_⟩
    · simp only [serialize]
      rw [hraw]
      dsimp only
      rw [writeHashmap, hbuild, if_pos (by rw [List.length_map]; exact hlen), hpbs]
      dsimp only
      rw [List.length_map]
    · intro rest
      rw [deserialize, readHashmap, List.append_assoc,
        readN_exact (length_leBytes 4 kvs.length)]
      dsimp only
      rw [leDecode_leBytes hlen, ← hsortlen, readPairsVec_write hpbs rest]
      dsimp only
      have hproj : sortByKey Prod.fst (kvs.map fun p =>
          (okBytes (serialize kd p.1), okBytes (serialize vd p.2))) =
          ((sortByKey Prod.fst (kvs.map fun p =>
            (okBytes (serialize kd p.1),
              (okBytes (serialize vd p.2), (canon kd p.1, canon vd p.2))))).map
            fun q => (q.1, q.2.1)) := by
        rw [@sortByKey_map_proj (List Nat × (List Nat × (PyVal × PyVal)))
          (List Nat × List Nat) Prod.fst Prod.fst (fun q => (q.1, q.2.1)) (fun a => rfl)
          (kvs.map fun p =>
            (okBytes (serialize kd p.1),
              (okBytes (serialize vd p.2), (canon kd p.1, canon vd p.2)))) hndE]
        rw [List.map_map]
        rfl
      rw [hproj, deserializePairs_map ?_]
      · dsimp only
        rw [canon]
        rw [canonMapEntries_map]
        have hproj2 : (sortByKey Prod.fst (kvs.map fun p =>
            (okBytes (serialize kd p.1), (canon kd p.1, canon vd p.2)))).map Prod.snd =
            ((sortByKey Prod.fst (kvs.map fun p =>
              (okBytes (serialize kd p.1),
                (okBytes (serialize vd p.2), (canon kd p.1, canon vd p.2))))).map
              fun q => q.2.2) := by
          have hm : (kvs.map fun p =>
              (okBytes (serialize kd p.1), (canon kd p.1, canon vd p.2))) =
              ((kvs.map fun p =>
                (okBytes (serialize kd p.1),
                  (okBytes (serialize vd p.2), (canon kd p.1, canon vd p.2)))).map
                fun q => (q.1, q.2.2)) := by
            rw [List.map_map]
            rfl
          rw [hm, ← @sortByKey_map_proj (List Nat × (List Nat × (PyVal × PyVal)))
            (List Nat × (PyVal × PyVal)) Prod.fst Prod.fst (fun q => (q.1, q.2.2)) (fun a => rfl)
            (kvs.map fun p =>
              (okBytes (serialize kd p.1),
                (okBytes (serialize vd p.2), (canon kd p.1, canon vd p.2)))) hndE,
            List.map_map]
          rfl
        rw [hproj2]
      · intro q hq
        have hq' : q ∈ kvs.map fun p =>
            (okBytes (serialize kd p.1),
              (okBytes (serialize vd p.2), (canon kd p.1, canon vd p.2))) :=
          (perm_sortByKey Prod.fst _).subset hq
        obtain ⟨p, hp, hqp⟩ := List.mem_map.mp hq'
        obtain ⟨bk, hsk, hdk⟩ := hk p.1 (hvp p hp).1
        obtain ⟨bv, hsv, hdv⟩ := hv p.2 (hvp p hp).2
        subst hqp
        constructor
        · dsimp only
          rw [hsk, okBytes]
          have := hdk []
          rw [List.append_nil] at this
          exact this
        · dsimp only
          rw [hsv, okBytes]
          have := hdv []
          rw [List.append_nil] at this
          exact this
  all_goals simp [validB] at hval

theorem serOk_record {fields : List (List Nat × Desc)} {validate exactSize : Bool}
    (H : ∀ p ∈ fields, SerOk p.2)
    (hnd : (fields.map Prod.fst).Nodup) : SerOk (.record fields validate exactSize) := by
  intro v hval
  cases v
  case dict kvs =>
    simp only [validB, Bool.and_eq_true] at hval
    obtain ⟨hkeys, hvf⟩ := hval
    split at hkeys
    next ks hks =>
      have hperm : ks.Perm (fields.map Prod.fst) := isPerm_perm hkeys
      obtain ⟨bs, hs, hdes⟩ := serializeFields_ok H hnd hvf
      refine ⟨bs, ?_, ?_⟩
      · simp only [serialize]
        cases validate
        · rw [if_neg (by simp)]
          exact hs
        · rw [if_pos rfl, missingKeys_nil hks hperm, extraKeys_nil hks hperm]
          rw [if_pos List.isEmpty_nil, if_pos List.isEmpty_nil]
          exact hs
      · intro rest
        rw [deserialize, hdes rest [] (by simp)]
        dsimp only
        rw [canon]
        rw [List.nil_append]
    next => cases hkeys
  all_goals simp [validB] at hval

theorem serOk_of_wf : ∀ (d : Desc), wf d = true → SerOk d := by
  have main : ∀ (N : Nat) (d : Desc), sizeOf d ≤ N → wf d = true → SerOk d := by
    intro N
    induction N with
    | zero =>
      intro d hle _
      exfalso
      have h1 := one_le_sizeOf_Desc d
      omega
    | succ n ih =>
      intro d hle hwf
      match d with
      | .uint w => exact serOk_uint w
      | .int w => exact serOk_int w
      | .f32 => exact serOk_f32
      | .f64 => exact serOk_f64
      | .bool => exact serOk_bool
      | .string => exact serOk_string
      | .bytes => exact serOk_bytes
      | .pubkey => exact serOk_pubkey
      | .padding d' => exact serOk_padding hwf
      | .optional d' =>
        rw [wf] at hwf
        refine serOk_optional (ih d' ?_ hwf)
        have h1 : sizeOf (Desc.optional d') = 1 + sizeOf d' := by simp
        omega
      | .array d' m =>
        rw [wf] at hwf
        refine serOk_array (ih d' ?_ hwf) m
        have h1 : 1 + sizeOf d' ≤ sizeOf (Desc.array d' m) := by simp <;> omega
        omega
      | .vector d' =>
        rw [wf] at hwf
        refine serOk_vector (ih d' ?_ hwf)
        have h1 : sizeOf (Desc.vector d') = 1 + sizeOf d' := by simp
        omega
      | .set d' =>
        rw [wf] at hwf
        refine serOk_set (ih d' ?_ hwf)
        have h1 : sizeOf (Desc.set d') = 1 + sizeOf d' := by simp
        omega
      | .map kd vd =>
        rw [wf, Bool.and_eq_true] at hwf
        have h1 : sizeOf (Desc.map kd vd) = 1 + sizeOf kd + sizeOf vd := by simp
        have hk1 : 1 ≤ sizeOf kd := one_le_sizeOf_Desc kd
        have hv1 : 1 ≤ sizeOf vd := one_le_sizeOf_Desc vd
        exact serOk_map (ih kd (by omega) hwf.1) (ih vd (by omega) hwf.2)
      | .record fields validate exactSize =>
        rw [wf, Bool.and_eq_true, decide_eq_true_eq] at hwf
        have hfsz : 1 + sizeOf fields ≤ sizeOf (Desc.record fields validate exactSize) := by
          simp
          omega
        refine serOk_record (fun p hp => ih p.2 ?_ (wfFields_iff.mp hwf.2 p hp)) hwf.1
        have := sizeOf_mem_fields hp
        omega
  intro d hwf
  exact main (sizeOf d) d (le_refl _) hwf

theorem noPadFields_iff {fields : List (List Nat × Desc)} :
    noPadRecordsFields fields = true ↔
      ∀ p ∈ fields, isPaddingD p.2 = false ∧ noPadRecords p.2 = true := by
  induction fields with
  | nil => simp [noPadRecordsFields]
  | cons p t ih =>
    obtain ⟨n, d⟩ := p
    rw [noPadRecordsFields]
    simp only [Bool.and_eq_true, Bool.not_eq_true', ih, List.mem_cons]
    constructor
    · rintro ⟨⟨h1, h2⟩, h3⟩ q hq
      rcases hq with he | hm
      · subst he; exact ⟨h1, h2⟩
      · exact h3 q hm
    · intro h
      exact ⟨⟨(h (n, d) (Or.inl rfl)).1, (h (n, d) (Or.inl rfl)).2⟩,
        fun q hq => h q (Or.inr hq)⟩

theorem length_pkCanonRecord {fields : List (List Nat × Desc)} :
    ∀ {kvs : List (PyVal × PyVal)}, (pkCanonRecord fields kvs).length = kvs.length := by
  intro kvs
  induction kvs with
  | nil => rw [pkCanonRecord]
  | cons p t ih =>
    obtain ⟨k, u⟩ := p
    cases k <;> simp [pkCanonRecord, ih]

theorem canonFields_nopad {fields : List (List Nat × Desc)}
    (h : noPadRecordsFields fields = true) (kvs : List (PyVal × PyVal)) :
    canonFields fields kvs =
      fields.map (fun p => (.str p.1, canon p.2 ((pyLookup kvs p.1).getD .none))) := by
  induction fields with
  | nil => rw [canonFields]; rfl
  | cons p rest ih =>
    obtain ⟨n, d⟩ := p
    rw [noPadRecordsFields, Bool.and_eq_true, Bool.and_eq_true] at h
    have hp : ¬ (isPaddingD d = true) := by
      have h1 := h.1.1
      simp only [Bool.not_eq_true'] at h1
      simp [h1]
    rw [canonFields, if_neg hp, ih h.2, List.map_cons]

theorem pyLookup_unique :
    ∀ {kvs : List (PyVal × PyVal)} {ks : List (List Nat)} {n : List Nat} {v₀ : PyVal},
      keyStrNames kvs = some ks → ks.Nodup → (.str n, v₀) ∈ kvs →
      pyLookup kvs n = some v₀ := by
  intro kvs
  induction kvs with
  | nil => intro ks n v₀ _ _ hm; cases hm
  | cons p rest ih =>
    intro ks n v₀ hks hnd hm
    obtain ⟨k, u⟩ := p
    match k, hks with
    | .str m, hks =>
      rw [keyStrNames] at hks
      split at hks
      next ks' hrest =>
        cases hks
        rw [List.nodup_cons] at hnd
        rw [pyLookup, pyEq_str]
        by_cases hmn : m = n
        · subst hmn
          rw [if_pos (by simp)]
          rcases List.mem_cons.mp hm with he | hmem
          · cases he; rfl
          · exfalso
            have hmap := keyStrNames_map hrest
            have hin : PyVal.str m ∈ rest.map Prod.fst :=
              List.mem_map_of_mem Prod.fst hmem
            rw [hmap] at hin
            obtain ⟨m', hm', he'⟩ := List.mem_map.mp hin
            cases he'
            exact hnd.1 hm'
        · rw [if_neg (by simp [hmn])]
          rcases List.mem_cons.mp hm with he | hmem
          · exfalso
            cases he
            exact hmn rfl
          · exact ih hrest hnd.2 hmem
      next => cases hks

theorem lookupField_mem :
    ∀ {fields : List (List Nat × Desc)} {n : List Nat} {d : Desc},
      (fields.map Prod.fst).Nodup → (n, d) ∈ fields → lookupField fields n = some d := by
  intro fields
  induction fields with
  | nil => intro n d _ hm; cases hm
  | cons p rest ih =>
    obtain ⟨m, fd⟩ := p
    intro n d hnd hm
    rw [List.map_cons, List.nodup_cons] at hnd
    rw [lookupField]
    by_cases hmn : m = n
    · subst hmn
      rw [if_pos rfl]
      rcases List.mem_cons.mp hm with he | hmem
      · cases he; rfl
      · exact absurd (List.mem_map_of_mem Prod.fst hmem) hnd.1
    · rw [if_neg hmn]
      rcases List.mem_cons.mp hm with he | hmem
      · exfalso; cases he; exact hmn rfl
      · exact ih hnd.2 hmem

theorem pkCanonRecord_mem_of {fields : List (List Nat × Desc)} :
    ∀ {kvs : List (PyVal × PyVal)} {n : List Nat} {v₀ : PyVal} {d : Desc},
      (.str n, v₀) ∈ kvs → lookupField fields n = some d →
      (.str n, pkCanon d v₀) ∈ pkCanonRecord fields kvs := by
  intro kvs
  induction kvs with
  | nil => intro n v₀ d hm _; cases hm
  | cons p rest ih =>
    intro n v₀ d hm hlf
    obtain ⟨k, u⟩ := p
    rcases List.mem_cons.mp hm with he | hmem
    · cases he
      rw [pkCanonRecord]
      refine List.mem_cons.mpr (Or.inl ?_)
      dsimp only
      split
      next fd hfd =>
        rw [hlf] at hfd
        cases hfd
        rfl
      next hnone =>
        rw [hlf] at hnone
        cases hnone
    · cases k <;> rw [pkCanonRecord] <;>
        first
          | exact List.mem_cons.mpr (Or.inr (ih hmem hlf))
          | simp

theorem pkCanonRecord_sub {fields : List (List Nat × Desc)} :
    ∀ {kvs : List (PyVal × PyVal)} {ks : List (List Nat)},
      keyStrNames kvs = some ks →
      ∀ q ∈ pkCanonRecord fields kvs, ∃ n v₀, (.str n, v₀) ∈ kvs ∧ q.1 = .str n ∧
        ((∃ d, lookupField fields n = some d ∧ q.2 = pkCanon d v₀) ∨
         (lookupField fields n = Option.none ∧ q.2 = v₀)) := by
  intro kvs
  induction kvs with
  | nil =>
    intro ks _ q hq
    rw [pkCanonRecord] at hq
    cases hq
  | cons p rest ih =>
    intro ks hks q hq
    obtain ⟨k, u⟩ := p
    match k, hks with
    | .str m, hks =>
      rw [keyStrNames] at hks
      split at hks
      next ks' hrest =>
        cases hks
        rw [pkCanonRecord] at hq
        rcases List.mem_cons.mp hq with he | hmem
        · refine ⟨m, u, List.mem_cons.mpr (Or.inl rfl), ?_, ?_⟩
          · rw [he]
          · rw [he]
            dsimp only
            split
            next fd hfd => exact Or.inl ⟨fd, hfd, rfl⟩
            next hnone => exact Or.inr ⟨hnone, rfl⟩
        · obtain ⟨n, v₀, hmem', hq1, hrest'⟩ := ih hrest q hmem
          exact ⟨n, v₀, List.mem_cons.mpr (Or.inr hmem'), hq1, hrest'⟩
      next => cases hks

theorem canon_pkCanon_pyEq :
    ∀ (d : Desc) (v : PyVal), wf d = true → noPadRecords d = true → validB d v = true →
      pyEq (canon d v) (pkCanon d v) = true := by
  have main : ∀ (N : Nat) (d : Desc), sizeOf d ≤ N → ∀ (v : PyVal),
      wf d = true → noPadRecords d = true → validB d v = true →
      pyEq (canon d v) (pkCanon d v) = true := by
    intro N
    induction N with
    | zero =>
      intro d hle
      exfalso
      have h1 := one_le_sizeOf_Desc d
      omega
    | succ n ih =>
      intro d hle v hwf hnp hval
      match d with
      | .uint w =>
        cases v <;> simp [validB] at hval
        next z =>
          have hc : canon (.uint w) (.int z) = .int z := by rw [canon]
          have hpk : pkCanon (.uint w) (.int z) = .int z := by rw [pkCanon] <;> simp
          rw [hc, hpk, pyEq]
          simp
      | .int w =>
        cases v <;> simp [validB] at hval
        next z =>
          have hc : canon (.int w) (.int z) = .int z := by rw [canon]
          have hpk : pkCanon (.int w) (.int z) = .int z := by rw [pkCanon] <;> simp
          rw [hc, hpk, pyEq]
          simp
      | .f32 =>
        cases v <;> simp [validB] at hval
        next p =>
          have hc : canon .f32 (.f32 p) = .f32 p := by rw [canon]
          have hpk : pkCanon .f32 (.f32 p) = .f32 p := by rw [pkCanon] <;> simp
          rw [hc, hpk, pyEq, f32Eq]
          simp [hval.2]
      | .f64 =>
        cases v <;> simp [validB] at hval
        next p =>
          have hc : canon .f64 (.f64 p) = .f64 p := by rw [canon]
          have hpk : pkCanon .f64 (.f64 p) = .f64 p := by rw [pkCanon] <;> simp
          rw [hc, hpk, pyEq, f64Eq]
          simp [hval.2]
      | .string =>
        cases v <;> simp [validB] at hval
        next cs =>
          have hc : canon .string (.str cs) = .str cs := by rw [canon]
          have hpk : pkCanon .string (.str cs) = .str cs := by rw [pkCanon] <;> simp
          rw [hc, hpk, pyEq]
          simp
      | .bytes =>
        cases v <;> simp [validB] at hval
        next bs =>
          have hc : canon .bytes (.bytes bs) = .bytes bs := by rw [canon]
          have hpk : pkCanon .bytes (.bytes bs) = .bytes bs := by rw [pkCanon] <;> simp
          rw [hc, hpk, pyEq]
          simp
      | .bool =>
        have hc : canon .bool v = .bool (boolArg v) := by rw [canon]
        have hpk : pkCanon .bool v = v := by rw [pkCanon] <;> simp
        rw [hc, hpk, boolArg]
        cases v
        case bool b => cases b <;> simp [pyEq]
        case int z =>
          rw [validB] at hval
          have hz : z = 0 ∨ z = 1 := by
            rcases Bool.or_eq_true_iff.mp hval with h01 | h1
            · rcases Bool.or_eq_true_iff.mp h01 with hb | h0
              · simp [pyIsBool] at hb
              · rw [pyEq] at h0
                simp at h0
                exact Or.inl h0
            · rw [pyEq] at h1
              simp at h1
              exact Or.inr h1
          rcases hz with h | h <;> subst h <;> simp [pyEq]
        case f64 p =>
          rw [validB] at hval
          have hz : f64EqInt p 0 = true ∨ f64EqInt p 1 = true := by
            rcases Bool.or_eq_true_iff.mp hval with h01 | h1
            · rcases Bool.or_eq_true_iff.mp h01 with hb | h0
              · simp [pyIsBool] at hb
              · rw [pyEq] at h0
                exact Or.inl h0
            · rw [pyEq] at h1
              exact Or.inr h1
          by_cases hb0 : f64EqInt p 0 = true
          · have hb : boolArg (.f64 p) = false := by
              rw [boolArg, pyEq, hb0]
              rfl
            rw [show (!pyEq (PyVal.f64 p) (PyVal.int 0)) = boolArg (PyVal.f64 p) from rfl, hb]
            rw [pyEq]
            exact hb0
          · have hb0' : f64EqInt p 0 = false := by
              cases hfe : f64EqInt p 0
              · rfl
              · exact absurd hfe hb0
            have hb : boolArg (.f64 p) = true := by
              rw [boolArg, pyEq, hb0']
              rfl
            rw [show (!pyEq (PyVal.f64 p) (PyVal.int 0)) = boolArg (PyVal.f64 p) from rfl, hb]
            rw [pyEq]
            rcases hz with h | h
            · exact absurd h hb0
            · exact h
        case f32 p =>
          rw [validB] at hval
          have hz : f32EqInt p 0 = true ∨ f32EqInt p 1 = true := by
            rcases Bool.or_eq_true_iff.mp hval with h01 | h1
            · rcases Bool.or_eq_true_iff.mp h01 with hb | h0
              · simp [pyIsBool] at hb
              · rw [pyEq] at h0
                exact Or.inl h0
            · rw [pyEq] at h1
              exact Or.inr h1
          by_cases hb0 : f32EqInt p 0 = true
          · have hb : boolArg (.f32 p) = false := by
              rw [boolArg, pyEq, hb0]
              rfl
            rw [show (!pyEq (PyVal.f32 p) (PyVal.int 0)) = boolArg (PyVal.f32 p) from rfl, hb]
            rw [pyEq]
            exact hb0
          · have hb0' : f32EqInt p 0 = false := by
              cases hfe : f32EqInt p 0
              · rfl
              · exact absurd hfe hb0
            have hb : boolArg (.f32 p) = true := by
              rw [boolArg, pyEq, hb0']
              rfl
            rw [show (!pyEq (PyVal.f32 p) (PyVal.int 0)) = boolArg (PyVal.f32 p) from rfl, hb]
            rw [pyEq]
            rcases hz with h | h
            · exact absurd h hb0
            · exact h
        all_goals simp [validB, pyIsBool, pyEq] at hval
      | .pubkey =>
        cases v
        case bytes bs =>
          have hc : canon .pubkey (.bytes bs) = .str (b58Encode bs) := by rw [canon]
          have hpk : pkCanon .pubkey (.bytes bs) = .str (b58Encode bs) := by rw [pkCanon]
          rw [hc, hpk, pyEq]
          simp
        case str cs =>
          have hc : canon .pubkey (.str cs) = .str cs := by rw [canon] <;> simp
          have hpk : pkCanon .pubkey (.str cs) = .str cs := by rw [pkCanon] <;> simp
          rw [hc, hpk, pyEq]
          simp
        all_goals simp [validB] at hval
      | .padding d' =>
        cases v <;> simp [validB] at hval
        have hc : canon (.padding d') .none = .none := by rw [canon]
        have hpk : pkCanon (.padding d') .none = .none := by rw [pkCanon] <;> simp
        rw [hc, hpk, pyEq]
      | .optional d' =>
        rw [wf] at hwf
        rw [noPadRecords] at hnp
        have hsz : sizeOf (Desc.optional d') = 1 + sizeOf d' := by simp
        by_cases hne : v = .none
        · subst hne
          have hc : canon (.optional d') .none = .none := by rw [canon]
          have hpk : pkCanon (.optional d') .none = .none := by rw [pkCanon]
          rw [hc, hpk, pyEq]
        · rw [canon_optional_ne hne, pkCanon_optional_ne hne]
          rw [validB_optional_ne hne] at hval
          exact ih d' (by omega) v hwf hnp hval
      | .array d' m =>
        rw [wf] at hwf
        rw [noPadRecords] at hnp
        have hsz : 1 + sizeOf d' ≤ sizeOf (Desc.array d' m) := by simp <;> omega
        cases v
        case list xs =>
          rw [validB, Bool.and_eq_true] at hval
          have hvx := validElems_iff.mp hval.2
          have hc : canon (.array d' m) (.list xs) = .list (canonElems d' xs) := by rw [canon]
          have hpk : pkCanon (.array d' m) (.list xs) = .list (pkCanonElems d' xs) := by
            rw [pkCanon]
          rw [hc, hpk, canonElems_map, pkCanonElems_map, pyEq_list_iff]
          refine ⟨by rw [List.length_map, List.length_map], ?_⟩
          intro p hp
          rw [List.zip_map'] at hp
          obtain ⟨x, hx, hpx⟩ := List.mem_map.mp hp
          rw [← hpx]
          exact ih d' (by omega) x hwf hnp (hvx x hx)
        all_goals simp [validB] at hval
      | .vector d' =>
        rw [wf] at hwf
        rw [noPadRecords] at hnp
        have hsz : sizeOf (Desc.vector d') = 1 + sizeOf d' := by simp
        cases v
        case list xs =>
          rw [validB, Bool.and_eq_true] at hval
          have hvx := validElems_iff.mp hval.2
          have hc : canon (.vector d') (.list xs) = .list (canonElems d' xs) := by rw [canon]
          have hpk : pkCanon (.vector d') (.list xs) = .list (pkCanonElems d' xs) := by
            rw [pkCanon]
          rw [hc, hpk, canonElems_map, pkCanonElems_map, pyEq_list_iff]
          refine ⟨by rw [List.length_map, List.length_map], ?_⟩
          intro p hp
          rw [List.zip_map'] at hp
          obtain ⟨x, hx, hpx⟩ := List.mem_map.mp hp
          rw [← hpx]
          exact ih d' (by omega) x hwf hnp (hvx x hx)
        all_goals simp [validB] at hval
      | .set d' =>
        rw [wf] at hwf
        rw [noPadRecords] at hnp
        have hsz : sizeOf (Desc.set d') = 1 + sizeOf d' := by simp
        cases v
        case set xs =>
          simp only [validB, Bool.and_eq_true, decide_eq_true_eq, List.all_eq_true] at hval
          obtain ⟨⟨⟨⟨hlen, helems⟩, hndb⟩, hblen⟩, hdist⟩ := hval
          have hvx := validElems_iff.mp helems
          have hc : canon (.set d') (.set xs) =
              .set (buildPySet ((sortByKey Prod.fst (canonSetEntries d' xs)).map Prod.snd)) := by
            rw [canon]
          have hpk : pkCanon (.set d') (.set xs) = .set (pkCanonElems d' xs) := by rw [pkCanon]
          have hentE : (canonSetEntries d' xs).map Prod.snd = xs.map (canon d') := by
            rw [canonSetEntries_map, List.map_map]
            rfl
          have hpermL : ((sortByKey Prod.fst (canonSetEntries d' xs)).map Prod.snd).Perm
              (xs.map (canon d')) := by
            have h1 := (perm_sortByKey Prod.fst (canonSetEntries d' xs)).map Prod.snd
            rw [hentE] at h1
            exact h1
          have hdist' : pyAllDistinct
              ((sortByKey Prod.fst (canonSetEntries d' xs)).map Prod.snd) = true :=
            pyAllDistinct_perm hpermL.symm hdist
          rw [hc, hpk, buildPySet_distinct_id hdist', pkCanonElems_map, pyEq_set_iff]
          constructor
          · intro a ha
            obtain ⟨x, hx, hax⟩ := List.mem_map.mp (hpermL.subset ha)
            refine ⟨pkCanon d' x, List.mem_map_of_mem _ hx, ?_⟩
            rw [← hax]
            exact ih d' (by omega) x hwf hnp (hvx x hx)
          · intro y hy
            obtain ⟨x, hx, hyx⟩ := List.mem_map.mp hy
            refine ⟨canon d' x, hpermL.symm.subset (List.mem_map_of_mem _ hx), ?_⟩
            rw [← hyx]
            exact ih d' (by omega) x hwf hnp (hvx x hx)
        all_goals simp [validB] at hval
      | .map kd vd =>
        rw [wf, Bool.and_eq_true] at hwf
        rw [noPadRecords, Bool.and_eq_true] at hnp
        have hsz : sizeOf (Desc.map kd vd) = 1 + sizeOf kd + sizeOf vd := by simp
        have hk1 := one_le_sizeOf_Desc kd
        have hv1 := one_le_sizeOf_Desc vd
        cases v
        case dict kvs =>
          simp only [validB, Bool.and_eq_true, decide_eq_true_eq, List.all_eq_true] at hval
          obtain ⟨⟨⟨⟨hlen, hpairs⟩, hndb⟩, hblen⟩, hdist⟩ := hval
          have hvp := validPairs_iff.mp hpairs
          have hc : canon (.map kd vd) (.dict kvs) =
              .dict (buildPyDict
                ((sortByKey Prod.fst (canonMapEntries kd vd kvs)).map Prod.snd)) := by
            rw [canon]
          have hpk : pkCanon (.map kd vd) (.dict kvs) = .dict (pkCanonPairs kd vd kvs) := by
            rw [pkCanon]
          have hentE : (canonMapEntries kd vd kvs).map Prod.snd =
              kvs.map (fun p => (canon kd p.1, canon vd p.2)) := by
            rw [canonMapEntries_map, List.map_map]
            rfl
          have hpermM : ((sortByKey Prod.fst (canonMapEntries kd vd kvs)).map Prod.snd).Perm
              (kvs.map (fun p => (canon kd p.1, canon vd p.2))) := by
            have h1 := (perm_sortByKey Prod.fst (canonMapEntries kd vd kvs)).map Prod.snd
            rw [hentE] at h1
            exact h1
          have hkeysE : (kvs.map (fun p => (canon kd p.1, canon vd p.2))).map Prod.fst =
              kvs.map (fun p => canon kd p.1) := by
            rw [List.map_map]
            rfl
          have hdistK : pyAllDistinct
              (((sortByKey Prod.fst (canonMapEntries kd vd kvs)).map Prod.snd).map
                Prod.fst) = true := by
            have h2 := hpermM.map Prod.fst
            rw [hkeysE] at h2
            exact pyAllDistinct_perm h2.symm hdist
          rw [hc, hpk, buildPyDict_distinct_id hdistK, pkCanonPairs_map, pyEq_dict_iff]
          refine ⟨?_, ?_, ?_⟩
          · rw [hpermM.length_eq, List.length_map, List.length_map]
          · intro p hp
            obtain ⟨q0, hq0, hpq⟩ := List.mem_map.mp (hpermM.subset hp)
            refine ⟨(pkCanon kd q0.1, pkCanon vd q0.2), List.mem_map_of_mem _ hq0, ?_, ?_⟩
            · rw [← hpq]
              exact ih kd (by omega) q0.1 hwf.1 hnp.1 (hvp q0 hq0).1
            · rw [← hpq]
              exact ih vd (by omega) q0.2 hwf.2 hnp.2 (hvp q0 hq0).2
          · intro q hq
            obtain ⟨p0, hp0, hqp⟩ := List.mem_map.mp hq
            refine ⟨(canon kd p0.1, canon vd p0.2),
              hpermM.symm.subset (List.mem_map_of_mem _ hp0), ?_, ?_⟩
            · rw [← hqp]
              exact ih kd (by omega) p0.1 hwf.1 hnp.1 (hvp p0 hp0).1
            · rw [← hqp]
              exact ih vd (by omega) p0.2 hwf.2 hnp.2 (hvp p0 hp0).2
        all_goals simp [validB] at hval
      | .record fields validate ex =>
        rw [wf, Bool.and_eq_true, decide_eq_true_eq] at hwf
        rw [noPadRecords] at hnp
        have hfsz : 1 + sizeOf fields ≤ sizeOf (Desc.record fields validate ex) := by
          simp
          omega
        cases v
        case dict kvs =>
          simp only [validB, Bool.and_eq_true] at hval
          obtain ⟨hkeys, hvf⟩ := hval
          split at hkeys
          next ks hks =>
            have hperm : ks.Perm (fields.map Prod.fst) := isPerm_perm hkeys
            have hksnd : ks.Nodup := hperm.nodup_iff.mpr hwf.1
            have hvf' := validFields_iff.mp hvf
            have hc : canon (.record fields validate ex) (.dict kvs) =
                .dict (canonFields fields kvs) := by rw [canon]
            have hpk : pkCanon (.record fields validate ex) (.dict kvs) =
                .dict (pkCanonRecord fields kvs) := by rw [pkCanon]
            rw [hc, hpk, canonFields_nopad hnp, pyEq_dict_iff]
            refine ⟨?_, ?_, ?_⟩
            · rw [List.length_map, length_pkCanonRecord]
              have h1 := congrArg List.length (keyStrNames_map hks)
              rw [List.length_map, List.length_map] at h1
              rw [h1, hperm.length_eq, List.length_map]
            · intro p hp
              obtain ⟨pf, hfdmem, hpd⟩ := List.mem_map.mp hp
              obtain ⟨nm, fd⟩ := pf
              subst hpd
              have hnks : nm ∈ ks := hperm.symm.subset (List.mem_map_of_mem Prod.fst hfdmem)
              have hstr : PyVal.str nm ∈ kvs.map Prod.fst := by
                rw [keyStrNames_map hks]
                exact List.mem_map_of_mem _ hnks
              obtain ⟨p0, hp0mem, hp0e⟩ := List.mem_map.mp hstr
              obtain ⟨k0, v0⟩ := p0
              change k0 = PyVal.str nm at hp0e
              subst hp0e
              have hlook : pyLookup kvs nm = some v0 := pyLookup_unique hks hksnd hp0mem
              have hlf : lookupField fields nm = some fd := lookupField_mem hwf.1 hfdmem
              obtain ⟨v', hlook', hvv⟩ := hvf' (nm, fd) hfdmem
              rw [hlook] at hlook'
              cases hlook'
              refine ⟨(.str nm, pkCanon fd v0), pkCanonRecord_mem_of hp0mem hlf, ?_, ?_⟩
              · show pyEq (.str nm) (.str nm) = true
                rw [pyEq_str]
                simp
              · show pyEq (canon fd ((pyLookup kvs nm).getD .none)) (pkCanon fd v0) = true
                rw [hlook]
                simp only [Option.getD_some]
                have hszf : sizeOf fd < sizeOf fields := sizeOf_mem_fields hfdmem
                exact ih fd (by omega) v0 (wfFields_iff.mp hwf.2 (nm, fd) hfdmem)
                  ((noPadFields_iff.mp hnp (nm, fd) hfdmem).2) hvv
            · intro q hq
              obtain ⟨nm, v0, hmem, hq1, hcase⟩ := pkCanonRecord_sub hks q hq
              have hnks : nm ∈ ks := by
                have hin : PyVal.str nm ∈ kvs.map Prod.fst :=
                  List.mem_map_of_mem Prod.fst hmem
                rw [keyStrNames_map hks] at hin
                obtain ⟨m', hm', hme⟩ := List.mem_map.mp hin
                cases hme
                exact hm'
              have hnames : nm ∈ fields.map Prod.fst := hperm.subset hnks
              obtain ⟨pf, hfdmem, hfe⟩ := List.mem_map.mp hnames
              obtain ⟨nm', fd⟩ := pf
              change nm' = nm at hfe
              rw [hfe] at hfdmem
              have hlf : lookupField fields nm = some fd := lookupField_mem hwf.1 hfdmem
              rcases hcase with ⟨d', hld', hq2⟩ | ⟨hnone, _⟩
              · rw [hlf] at hld'
                cases hld'
                have hlook : pyLookup kvs nm = some v0 := pyLookup_unique hks hksnd hmem
                obtain ⟨v', hlook', hvv⟩ := hvf' (nm, fd) hfdmem
                rw [hlook] at hlook'
                cases hlook'
                refine ⟨(.str nm, canon fd ((pyLookup kvs nm).getD .none)),
                  List.mem_map_of_mem _ hfdmem, ?_, ?_⟩
                · rw [hq1]
                  show pyEq (.str nm) (.str nm) = true
                  rw [pyEq_str]
                  simp
                · rw [hq2]
                  show pyEq (canon fd ((pyLookup kvs nm).getD .none)) (pkCanon fd v0) = true
                  rw [hlook]
                  simp only [Option.getD_some]
                  have hszf : sizeOf fd < sizeOf fields := sizeOf_mem_fields hfdmem
                  exact ih fd (by omega) v0 (wfFields_iff.mp hwf.2 (nm, fd) hfdmem)
                    ((noPadFields_iff.mp hnp (nm, fd) hfdmem).2) hvv
              · rw [hlf] at hnone
                cases hnone
          next => cases hkeys
        all_goals simp [validB] at hval
  intro d v hwf hnp hval
  exact main (sizeOf d) d (le_refl _) v hwf hnp hval

theorem serializeSetElems_ok_of {d : Desc} :
    ∀ {xs : List PyVal}, (∀ x ∈ xs, ∃ b, serialize d x = .ok b) →
      serializeSetElems d xs = .ok (xs.map (fun x => okBytes (serialize d x))) := by
  intro xs
  induction xs with
  | nil => intro _; simp only [serializeSetElems, List.map_nil]
  | cons x t ih =>
    intro h
    obtain ⟨b, hb⟩ := h x (by simp)
    rw [serializeSetElems, hb]
    dsimp only
    rw [ih (fun y hy => h y (by simp [hy]))]
    dsimp only
    rw [List.map_cons, hb, okBytes]

theorem serializeMapPairs_ok_of {kd vd : Desc} :
    ∀ {kvs : List (PyVal × PyVal)},
      (∀ p ∈ kvs, (∃ bk, serialize kd p.1 = .ok bk) ∧ (∃ bv, serialize vd p.2 = .ok bv)) →
      serializeMapPairs kd vd kvs =
        .ok (kvs.map (fun p => (okBytes (serialize kd p.1), okBytes (serialize vd p.2)))) := by
  intro kvs
  induction kvs with
  | nil => intro _; simp only [serializeMapPairs, List.map_nil]
  | cons p t ih =>
    obtain ⟨k, v⟩ := p
    intro h
    obtain ⟨⟨bk, hbk⟩, ⟨bv, hbv⟩⟩ := h (k, v) (by simp)
    rw [serializeMapPairs, hbk]
    dsimp only
    rw [hbv]
    dsimp only
    rw [ih (fun q hq => h q (by simp [hq]))]
    dsimp only
    rw [List.map_cons, hbk, hbv, okBytes, okBytes]

theorem set_serialize_perm {d : Desc} {xs ys : List PyVal} (hperm : xs.Perm ys)
    (h : ∀ x ∈ xs, ∃ b, serialize d x = .ok b) :
    serialize (.set d) (.set xs) = serialize (.set d) (.set ys) := by
  have hy : ∀ y ∈ ys, ∃ b, serialize d y = .ok b := fun y hym => h y (hperm.symm.subset hym)
  simp only [serialize]
  rw [serializeSetElems_ok_of h, serializeSetElems_ok_of hy]
  dsimp only
  have hp2 : (xs.map (fun x => okBytes (serialize d x))).Perm
      (ys.map (fun x => okBytes (serialize d x))) := hperm.map _
  have hbp := buildSet_perm hp2
  rw [writeHashset, writeHashset, hbp.length_eq]
  have hsorteq : sortByKey id (buildSet (xs.map fun x => okBytes (serialize d x))) =
      sortByKey id (buildSet (ys.map fun x => okBytes (serialize d x))) := by
    apply sorted_key_perm_eq id
    · exact ((perm_sortByKey id _).trans hbp).trans (perm_sortByKey id _).symm
    · exact sorted_sortByKey id _
    · exact sorted_sortByKey id _
    · rw [List.map_id]
      exact ((perm_sortByKey id _).symm.nodup_iff).mp (nodup_buildSet _)
  rw [hsorteq]

theorem map_serialize_perm {kd vd : Desc} {kvs kvs' : List (PyVal × PyVal)}
    (hperm : kvs.Perm kvs')
    (h : ∀ p ∈ kvs, (∃ bk, serialize kd p.1 = .ok bk) ∧ (∃ bv, serialize vd p.2 = .ok bv))
    (hnd : (kvs.map (fun p => okBytes (serialize kd p.1))).Nodup) :
    serialize (.map kd vd) (.dict kvs) = serialize (.map kd vd) (.dict kvs') := by
  have h' : ∀ p ∈ kvs', (∃ bk, serialize kd p.1 = .ok bk) ∧
      (∃ bv, serialize vd p.2 = .ok bv) := fun p hp => h p (hperm.symm.subset hp)
  have hnd' : (kvs'.map (fun p => okBytes (serialize kd p.1))).Nodup :=
    ((hperm.map _).nodup_iff).mp hnd
  simp only [serialize]
  rw [serializeMapPairs_ok_of h, serializeMapPairs_ok_of h']
  dsimp only
  have hAB : (kvs.map (fun p => (okBytes (serialize kd p.1), okBytes (serialize vd p.2)))).Perm
      (kvs'.map (fun p => (okBytes (serialize kd p.1), okBytes (serialize vd p.2)))) :=
    hperm.map _
  have hndA : ((kvs.map (fun p =>
      (okBytes (serialize kd p.1), okBytes (serialize vd p.2)))).map Prod.fst).Nodup := by
    rw [List.map_map]
    exact hnd
  have hndB : ((kvs'.map (fun p =>
      (okBytes (serialize kd p.1), okBytes (serialize vd p.2)))).map Prod.fst).Nodup := by
    rw [List.map_map]
    exact hnd'
  rw [writeHashmap, writeHashmap, buildDict_nodup_id hndA, buildDict_nodup_id hndB,
    hAB.length_eq]
  have hsorteq : sortByKey Prod.fst
      (kvs.map (fun p => (okBytes (serialize kd p.1), okBytes (serialize vd p.2)))) =
      sortByKey Prod.fst
      (kvs'.map (fun p => (okBytes (serialize kd p.1), okBytes (serialize vd p.2)))) := by
    apply sorted_key_perm_eq Prod.fst
    · exact ((perm_sortByKey Prod.fst _).trans hAB).trans (perm_sortByKey Prod.fst _).symm
    · exact sorted_sortByKey Prod.fst _
    · exact sorted_sortByKey Prod.fst _
    · exact (((perm_sortByKey Prod.fst _).map Prod.fst).symm.nodup_iff).mp hndA
  rw [hsorteq]

theorem deserializeFields_keys :
    ∀ (fields : List (List Nat × Desc)) (acc : List (PyVal × PyVal)) (input : List Nat)
      (kvs : List (PyVal × PyVal)) (r : List Nat),
      (fields.map Prod.fst).Nodup →
      (∀ q ∈ acc, ∃ m, q.1 = PyVal.str m ∧ ¬ (m ∈ fields.map Prod.fst)) →
      deserializeFields fields acc input = .ok (kvs, r) →
      ∀ q ∈ kvs, q ∈ acc ∨
        ∃ m d2, q.1 = PyVal.str m ∧ (m, d2) ∈ fields ∧ isPaddingD d2 = false := by
  intro fields
  induction fields with
  | nil =>
    intro acc input kvs r _ _ hdes q hq
    rw [deserializeFields] at hdes
    cases hdes
    exact Or.inl hq
  | cons f rest ih =>
    obtain ⟨name, d⟩ := f
    intro acc input kvs r hnd hacc hdes q hq
    rw [List.map_cons, List.nodup_cons] at hnd
    rw [deserializeFields] at hdes
    split at hdes
    next v r1 hdv =>
      have hfresh : ∀ q' ∈ acc, pyEq q'.1 (.str name) = false := by
        intro q' hq'
        obtain ⟨m, hm1, hm2⟩ := hacc q' hq'
        rw [hm1, pyEq_str]
        have hne : m ≠ name := by
          intro he
          exact hm2 (by rw [List.map_cons, he]; exact List.mem_cons_self _ _)
        simp [hne]
      by_cases hpad : isPaddingD d = true
      · rw [if_pos hpad, pyDictInsert_fresh hfresh,
          pyDictDelete_append_fresh (by rw [pyEq_str]; simp) hfresh] at hdes
        have haccinv : ∀ q' ∈ acc, ∃ m, q'.1 = PyVal.str m ∧
            ¬ (m ∈ rest.map Prod.fst) := by
          intro q' hq'
          obtain ⟨m, hm1, hm2⟩ := hacc q' hq'
          refine ⟨m, hm1, fun hmem => hm2 ?_⟩
          rw [List.map_cons]
          exact List.mem_cons.mpr (Or.inr hmem)
        rcases ih acc r1 kvs r hnd.2 haccinv hdes q hq with hin | ⟨m, d2, h1, h2, h3⟩
        · exact Or.inl hin
        · exact Or.inr ⟨m, d2, h1, List.mem_cons.mpr (Or.inr h2), h3⟩
      · rw [if_neg hpad, pyDictInsert_fresh hfresh] at hdes
        have haccinv : ∀ q' ∈ acc ++ [(PyVal.str name, v)], ∃ m, q'.1 = PyVal.str m ∧
            ¬ (m ∈ rest.map Prod.fst) := by
          intro q' hq'
          rcases List.mem_append.mp hq' with hin | hin
          · obtain ⟨m, hm1, hm2⟩ := hacc q' hin
            refine ⟨m, hm1, fun hmem => hm2 ?_⟩
            rw [List.map_cons]
            exact List.mem_cons.mpr (Or.inr hmem)
          · have he := List.mem_singleton.mp hin
            refine ⟨name, by rw [he], hnd.1⟩
        rcases ih (acc ++ [(.str name, v)]) r1 kvs r hnd.2 haccinv hdes q hq with
          hin | ⟨m, d2, h1, h2, h3⟩
        · rcases List.mem_append.mp hin with hin2 | hin2
          · exact Or.inl hin2
          · have he := List.mem_singleton.mp hin2
            exact Or.inr ⟨name, d, by rw [he], List.mem_cons.mpr (Or.inl rfl),
              by simpa using hpad⟩
        · exact Or.inr ⟨m, d2, h1, List.mem_cons.mpr (Or.inr h2), h3⟩
    next e => cases hdes

theorem sizeofFields_skip :
    ∀ (fields : List (List Nat × Desc)) (acc : Nat),
      sizeofFields fields false acc =
        some (fields.foldl (fun a p => a + (sizeofD p.2).getD 0) acc) := by
  intro fields
  induction fields with
  | nil => intro acc; rw [sizeofFields]; rfl
  | cons f rest ih =>
    obtain ⟨n, d⟩ := f
    intro acc
    rw [sizeofFields]
    cases hs : sizeofD d with
    | some s =>
      dsimp only
      rw [ih, List.foldl_cons]
      have hg : acc + (sizeofD (n, d).2).getD 0 = acc + s := by
        have hd : sizeofD (n, d).2 = some s := hs
        rw [hd, Option.getD_some]
      rw [hg]
    | none =>
      dsimp only
      rw [if_neg (by simp), ih, List.foldl_cons]
      have hg : acc + (sizeofD (n, d).2).getD 0 = acc := by
        have hd : sizeofD (n, d).2 = Option.none := hs
        rw [hd, Option.getD_none, Nat.add_zero]
      rw [hg]

theorem sizeofFields_exact_none :
    ∀ (fields : List (List Nat × Desc)) (acc : Nat),
      (∃ p ∈ fields, sizeofD p.2 = Option.none) →
      sizeofFields fields true acc = Option.none := by
  intro fields
  induction fields with
  | nil =>
    rintro acc ⟨p, hp, _⟩
    cases hp
  | cons f rest ih =>
    obtain ⟨n, d⟩ := f
    rintro acc ⟨p, hp, hnone⟩
    rw [sizeofFields]
    rcases List.mem_cons.mp hp with he | hm
    · subst he
      have hd : sizeofD d = Option.none := hnone
      rw [hd]
      dsimp only
      rw [if_pos rfl]
    · cases hs : sizeofD d with
      | some s =>
        dsimp only
        exact ih (acc + s) ⟨p, hm, hnone⟩
      | none =>
        dsimp only
        rw [if_pos rfl]

/-! ## The claims -/

/-- C1 (amended): for every well-formed descriptor whose records carry no
Padding fields, and every value of its valid domain, `decode (encode v)`
succeeds and compares Python-`==` to the value itself with every raw
32-byte PubKey payload replaced by its base58 text form.  (As stated the
claim fails for records with Padding fields, whose keys are dropped from
the decoded mapping: see the counterexample.) -/
theorem c1_roundtrip_amended (d : Desc) (v : PyVal) (hwf : wf d = true)
    (hnp : noPadRecords d = true) (hval : validB d v = true) :
    ∃ bs, encode d v = .ok bs ∧ decode d bs = .ok (canon d v) ∧
      pyEq (canon d v) (pkCanon d v) = true := by
  obtain ⟨bs, hs, hd⟩ := serOk_of_wf d hwf v hval
  refine ⟨bs, hs, ?_, canon_pkCanon_pyEq d v hwf hnp hval⟩
  rw [decode]
  have h0 := hd []
  rw [List.append_nil] at h0
  rw [h0]

/-- C1 witness: the amended round-trip at `U8` and the value `5`. -/
theorem c1_roundtrip_witness :
    ∃ bs, encode (.uint 1) (.int 5) = .ok bs ∧
      decode (.uint 1) bs = .ok (canon (.uint 1) (.int 5)) ∧
      pyEq (canon (.uint 1) (.int 5)) (pkCanon (.uint 1) (.int 5)) = true :=
  c1_roundtrip_amended (.uint 1) (.int 5) (by rw [wf] <;> simp)
    (by rw [noPadRecords] <;> simp) (by rw [validB]; decide)

/-- C1 counterexample: a one-field record whose field is Padding decodes to
a mapping without that key, and Python-`==` fails against the original
mapping; the PubKey exception does not apply (`pkCanon` leaves this value
unchanged), so `decode (encode v) == v` fails. -/
theorem c1_counterexample :
    validB (Desc.record [([112], .padding (.uint 1))] false false)
      (.dict [(.str [112], .none)]) = true ∧
    decode (Desc.record [([112], .padding (.uint 1))] false false)
      (okBytes (encode (Desc.record [([112], .padding (.uint 1))] false false)
        (.dict [(.str [112], .none)]))) = .ok (.dict []) ∧
    pkCanon (Desc.record [([112], .padding (.uint 1))] false false)
      (.dict [(.str [112], .none)]) = .dict [(.str [112], .none)] ∧
    pyEq (.dict []) (.dict [(.str [112], .none)]) = false := by
  refine ⟨?_, ?_, ?_, ?_⟩
  · simp [validB, keyStrNames, validFields, pyLookup, pyEq, List.isPerm]
  · have hser : encode (Desc.record [([112], .padding (.uint 1))] false false)
        (.dict [(.str [112], .none)]) = .ok [0] := by
      simp [encode, serialize, serializeFields, pyLookup, pyEq, sizeofD]
    rw [hser, okBytes]
    simp [decode, deserialize, deserializeFields, readN, sizeofD,
      pyDictInsert, pyDictDelete, pyEq, isPaddingD]
  · simp [pkCanon, pkCanonRecord, lookupField]
  · simp [pyEq]

/-- C2 (amended): set encoding is insertion-order independent whenever the
elements serialize; map encoding is insertion-order independent whenever
the keys and values serialize and no two keys serialize to the same byte
string.  (As stated the claim fails for maps whose distinct Python keys
share serialized bytes — the scratch dict keyed on key bytes then keeps a
value that depends on insertion order: see the counterexample.) -/
theorem c2_canonical_order_amended :
    (∀ (d : Desc) (xs ys : List PyVal), xs.Perm ys →
      (∀ x ∈ xs, ∃ b, serialize d x = .ok b) →
      serialize (.set d) (.set xs) = serialize (.set d) (.set ys)) ∧
    (∀ (kd vd : Desc) (kvs kvs' : List (PyVal × PyVal)), kvs.Perm kvs' →
      (∀ p ∈ kvs, (∃ bk, serialize kd p.1 = .ok bk) ∧ (∃ bv, serialize vd p.2 = .ok bv)) →
      (kvs.map (fun p => okBytes (serialize kd p.1))).Nodup →
      serialize (.map kd vd) (.dict kvs) = serialize (.map kd vd) (.dict kvs')) :=
  ⟨fun d xs ys hp h => set_serialize_perm hp h,
   fun kd vd kvs kvs' hp h hnd => map_serialize_perm hp h hnd⟩

/-- C2 witness: two-element set and map contents supplied in both orders
give the same bytes. -/
theorem c2_canonical_witness :
    serialize (.set (.uint 1)) (.set [.int 1, .int 2]) =
      serialize (.set (.uint 1)) (.set [.int 2, .int 1]) ∧
    serialize (.map (.uint 1) (.uint 1)) (.dict [(.int 1, .int 3), (.int 2, .int 4)]) =
      serialize (.map (.uint 1) (.uint 1)) (.dict [(.int 2, .int 4), (.int 1, .int 3)]) := by
  have h1 : serialize (.uint 1) (.int 1) = .ok [1] := by
    rw [serialize, if_pos (by decide)]
    rfl
  have h2 : serialize (.uint 1) (.int 2) = .ok [2] := by
    rw [serialize, if_pos (by decide)]
    rfl
  have h3 : serialize (.uint 1) (.int 3) = .ok [3] := by
    rw [serialize, if_pos (by decide)]
    rfl
  have h4 : serialize (.uint 1) (.int 4) = .ok [4] := by
    rw [serialize, if_pos (by decide)]
    rfl
  constructor
  · refine c2_canonical_order_amended.1 (.uint 1) _ _ (List.Perm.swap _ _ _) ?_
    intro x hx
    rcases List.mem_cons.mp hx with he | hx2
    · exact ⟨[1], by rw [he, h1]⟩
    · rcases List.mem_cons.mp hx2 with he | hx3
      · exact ⟨[2], by rw [he, h2]⟩
      · cases hx3
  · refine c2_canonical_order_amended.2 (.uint 1) (.uint 1) _ _ (List.Perm.swap _ _ _) ?_ ?_
    · intro p hp
      rcases List.mem_cons.mp hp with he | hp2
      · exact ⟨⟨[1], by rw [he, h1]⟩, ⟨[3], by rw [he, h3]⟩⟩
      · rcases List.mem_cons.mp hp2 with he | hp3
        · exact ⟨⟨[2], by rw [he, h2]⟩, ⟨[4], by rw [he, h4]⟩⟩
        · cases hp3
    · simp [okBytes, h1, h2]

/-- C2 counterexample: a PubKey-keyed map holding the same two key / value
pairs — one key as raw 32-byte binary, one as the base58 text of the same
payload — serializes to different bytes in the two insertion orders: both
keys serialize to the same 32 bytes, and the scratch dict keyed on those
bytes keeps the value written last. -/
theorem c2_counterexample :
    ([(PyVal.bytes (List.replicate 32 0), PyVal.int 1),
      (PyVal.str (b58Encode (List.replicate 32 0)), PyVal.int 2)] :
        List (PyVal × PyVal)).Perm
      [(PyVal.str (b58Encode (List.replicate 32 0)), PyVal.int 2),
       (PyVal.bytes (List.replicate 32 0), PyVal.int 1)] ∧
    ∃ b1 b2,
      serialize (.map .pubkey (.uint 1))
        (.dict [(.bytes (List.replicate 32 0), .int 1),
                (.str (b58Encode (List.replicate 32 0)), .int 2)]) = .ok b1 ∧
      serialize (.map .pubkey (.uint 1))
        (.dict [(.str (b58Encode (List.replicate 32 0)), .int 2),
                (.bytes (List.replicate 32 0), .int 1)]) = .ok b2 ∧
      b1 ≠ b2 := by
  have hK : serialize .pubkey (.bytes (List.replicate 32 0)) =
      .ok (List.replicate 32 0) := by
    rw [serialize]
    simp
  have hT : serialize .pubkey (.str (b58Encode (List.replicate 32 0))) =
      .ok (List.replicate 32 0) := by
    rw [serialize, b58Decode_encode (by intro b hb; simp at hb; omega)]
    simp
  have hv1 : serialize (.uint 1) (.int 1) = .ok [1] := by
    rw [serialize, if_pos (by decide)]
    rfl
  have hv2 : serialize (.uint 1) (.int 2) = .ok [2] := by
    rw [serialize, if_pos (by decide)]
    rfl
  refine ⟨List.Perm.swap _ _ _, ?_⟩
  have hp1 : serializeMapPairs .pubkey (.uint 1)
      [(.bytes (List.replicate 32 0), .int 1),
       (.str (b58Encode (List.replicate 32 0)), .int 2)] =
      .ok [(List.replicate 32 0, [1]), (List.replicate 32 0, [2])] := by
    rw [serializeMapPairs, hK]
    dsimp only
    rw [hv1]
    dsimp only
    rw [serializeMapPairs, hT]
    dsimp only
    rw [hv2]
    dsimp only
    rw [serializeMapPairs]
  have hp2 : serializeMapPairs .pubkey (.uint 1)
      [(.str (b58Encode (List.replicate 32 0)), .int 2),
       (.bytes (List.replicate 32 0), .int 1)] =
      .ok [(List.replicate 32 0, [2]), (List.replicate 32 0, [1])] := by
    rw [serializeMapPairs, hT]
    dsimp only
    rw [hv2]
    dsimp only
    rw [serializeMapPairs, hK]
    dsimp only
    rw [hv1]
    dsimp only
    rw [serializeMapPairs]
  have hb1 : buildDict [(List.replicate 32 0, [1]), (List.replicate 32 0, [2])] =
      [(List.replicate 32 0, [2])] := by
    simp [buildDict, upsert]
  have hb2 : buildDict [(List.replicate 32 0, [2]), (List.replicate 32 0, [1])] =
      [(List.replicate 32 0, [1])] := by
    simp [buildDict, upsert]
  have hw1 : writeVec (List.replicate 32 0) =
      .ok (leBytes 4 32 ++ List.replicate 32 0) := by
    rw [writeVec_length_ok (by simp), List.length_replicate]
  have hw2 : writeVec [2] = .ok (leBytes 4 1 ++ [2]) := writeVec_length_ok (by simp)
  have hw3 : writeVec [1] = .ok (leBytes 4 1 ++ [1]) := writeVec_length_ok (by simp)
  have hpv1 : writePairsVec [(List.replicate 32 0, [2])] =
      .ok (((leBytes 4 32 ++ List.replicate 32 0) ++ (leBytes 4 1 ++ [2])) ++ []) := by
    rw [writePairsVec, hw1]
    dsimp only
    rw [hw2]
    dsimp only
    rw [writePairsVec]
  have hpv2 : writePairsVec [(List.replicate 32 0, [1])] =
      .ok (((leBytes 4 32 ++ List.replicate 32 0) ++ (leBytes 4 1 ++ [1])) ++ []) := by
    rw [writePairsVec, hw1]
    dsimp only
    rw [hw3]
    dsimp only
    rw [writePairsVec]
  refine ⟨leBytes 4 1 ++
      (((leBytes 4 32 ++ List.replicate 32 0) ++ (leBytes 4 1 ++ [2])) ++ []),
    leBytes 4 1 ++
      (((leBytes 4 32 ++ List.replicate 32 0) ++ (leBytes 4 1 ++ [1])) ++ []),
    ?_, ?_, ?_⟩
  · simp only [serialize]
    rw [hp1]
    dsimp only
    rw [writeHashmap, hb1, if_pos (by decide),
      show sortByKey Prod.fst [(List.replicate 32 0, [2])] =
        [(List.replicate 32 0, [2])] from rfl, hpv1]
    rfl
  · simp only [serialize]
    rw [hp2]
    dsimp only
    rw [writeHashmap, hb2, if_pos (by decide),
      show sortByKey Prod.fst [(List.replicate 32 0, [1])] =
        [(List.replicate 32 0, [1])] from rfl, hpv2]
    rfl
  · decide

/-- C3: strict-mode record serialization checks the value mapping's keys
against the declared fields: missing declared names raise the
missing-keys `ValueError` (checked first), then undeclared extra keys
raise the extra-keys `ValueError`, and with matching key sets the fields
are serialized by the declared-order field loop. -/
theorem c3_strict_validation (fields : List (List Nat × Desc)) (ex : Bool)
    (kvs : List (PyVal × PyVal)) :
    ((missingKeys fields kvs).isEmpty = false →
      serialize (.record fields true ex) (.dict kvs) =
        .error (.valueErrorMissing (missingKeys fields kvs))) ∧
    ((missingKeys fields kvs).isEmpty = true → (extraKeys fields kvs).isEmpty = false →
      serialize (.record fields true ex) (.dict kvs) =
        .error (.valueErrorExtra (extraKeys fields kvs))) ∧
    ((missingKeys fields kvs).isEmpty = true → (extraKeys fields kvs).isEmpty = true →
      serialize (.record fields true ex) (.dict kvs) = serializeFields fields kvs) := by
  refine ⟨?_, ?_, ?_⟩
  · intro hm
    simp only [serialize]
    rw [if_pos trivial, if_neg (by simp [hm])]
  · intro hm he
    simp only [serialize]
    rw [if_pos trivial, if_pos hm, if_neg (by simp [he])]
  · intro hm he
    simp only [serialize]
    rw [if_pos trivial, if_pos hm, if_pos he]

/-- C3 witness: one-field strict records showing the missing-keys error,
the extra-keys error and the success case. -/
theorem c3_strict_witness :
    serialize (.record [([97], .uint 1)] true false) (.dict []) =
      .error (.valueErrorMissing [[97]]) ∧
    serialize (.record [] true false) (.dict [(.str [98], .int 0)]) =
      .error (.valueErrorExtra [.str [98]]) ∧
    serialize (.record [([97], .uint 1)] true false) (.dict [(.str [97], .int 5)]) =
      serializeFields [([97], .uint 1)] [(.str [97], .int 5)] := by
  have hm1 : missingKeys [([97], Desc.uint 1)] ([] : List (PyVal × PyVal)) = [[97]] := by
    simp [missingKeys]
  have hm2 : missingKeys ([] : List (List Nat × Desc)) [(PyVal.str [98], PyVal.int 0)] = [] := by
    simp [missingKeys]
  have he2 : extraKeys ([] : List (List Nat × Desc)) [(PyVal.str [98], PyVal.int 0)] =
      [PyVal.str [98]] := by
    simp [extraKeys]
  have hm3 : missingKeys [([97], Desc.uint 1)] [(PyVal.str [97], PyVal.int 5)] = [] := by
    simp [missingKeys, pyEq]
  have he3 : extraKeys [([97], Desc.uint 1)] [(PyVal.str [97], PyVal.int 5)] = [] := by
    simp [extraKeys, pyEq]
  refine ⟨?_, ?_, ?_⟩
  · have h := (c3_strict_validation [([97], .uint 1)] false []).1 (by rw [hm1]; rfl)
    rw [hm1] at h
    exact h
  · have h := (c3_strict_validation [] false [(.str [98], .int 0)]).2.1
      (by rw [hm2]; rfl) (by rw [he2]; rfl)
    rw [he2] at h
    exact h
  · exact (c3_strict_validation [([97], .uint 1)] false [(.str [97], .int 5)]).2.2
      (by rw [hm3]; rfl) (by rw [he3]; rfl)

/-- C4: the Padding contract: construction demands a fixed inner size and
raises `ValueError` otherwise; serialize ignores the value and writes
exactly `inner.sizeof()` zero bytes; deserialize consumes exactly that
many bytes and yields no value; and a record's deserialize leaves no key
of a Padding field in the output mapping. -/
theorem c4_padding_contract :
    (∀ d, sizeofD d = Option.none → mkPadding d = .error .valueError) ∧
    (∀ d s, sizeofD d = some s → mkPadding d = .ok (.padding d)) ∧
    (∀ d s v, sizeofD d = some s → serialize (.padding d) v = .ok (List.replicate s 0)) ∧
    (∀ d s input, sizeofD d = some s → s ≤ input.length →
      deserialize (.padding d) input = .ok (.none, input.drop s)) ∧
    (∀ fields validate ex input kvs r n pd, (fields.map Prod.fst).Nodup →
      deserialize (.record fields validate ex) input = .ok (.dict kvs, r) →
      (n, .padding pd) ∈ fields →
      ∀ q ∈ kvs, pyEq q.1 (.str n) = false) := by
  refine ⟨?_, ?_, ?_, ?_, ?_⟩
  · intro d h
    rw [mkPadding, h]
  · intro d s h
    rw [mkPadding, h]
  · intro d s v h
    rw [serialize, h]
    rfl
  · intro d s input h hlen
    have hr : readN s input = .ok (input.take s, input.drop s) := by
      rw [readN, if_neg (by omega)]
    rw [deserialize, h, show ((some s : Option Nat)).getD 0 = s from rfl, hr]
  · intro fields validate ex input kvs r n pd hnd hdes hmem q hq
    rw [deserialize] at hdes
    cases hdf : deserializeFields fields [] input with
    | ok pr =>
      obtain ⟨kvs2, r2⟩ := pr
      rw [hdf] at hdes
      dsimp only at hdes
      injection hdes with h1
      injection h1 with h2 h3
      injection h2 with h4
      subst h4
      subst h3
      rcases deserializeFields_keys fields [] input kvs2 r2 hnd (by simp) hdf q hq with
        hin | ⟨m, d2, h1, h2, h3⟩
      · cases hin
      · rw [h1, pyEq_str]
        by_cases hmn : m = n
        · subst hmn
          have e1 := lookupField_mem hnd h2
          have e2 := lookupField_mem hnd hmem
          rw [e1] at e2
          cases e2
          rw [isPaddingD] at h3
          cases h3
        · simp [hmn]
    | error e =>
      rw [hdf] at hdes
      simp at hdes

/-- C4 witness: the Padding contract at concrete descriptors: a
variable-size inner type is refused, a 4-byte inner type writes and skips
4 zero bytes, and decoding the one-Padding-field record yields the empty
mapping with no padding key. -/
theorem c4_padding_witness :
    mkPadding (.vector (.uint 1)) = .error .valueError ∧
    mkPadding (.uint 4) = .ok (.padding (.uint 4)) ∧
    serialize (.padding (.uint 4)) (.int 7) = .ok (List.replicate 4 0) ∧
    deserialize (.padding (.uint 4)) [9, 9, 9, 9, 5] = .ok (.none, [5]) ∧
    (∀ q ∈ ([] : List (PyVal × PyVal)), pyEq q.1 (.str [112]) = false) := by
  refine ⟨c4_padding_contract.1 (.vector (.uint 1)) (by rw [sizeofD]),
    c4_padding_contract.2.1 (.uint 4) 4 (by rw [sizeofD]),
    c4_padding_contract.2.2.1 (.uint 4) 4 (.int 7) (by rw [sizeofD]),
    c4_padding_contract.2.2.2.1 (.uint 4) 4 [9, 9, 9, 9, 5] (by rw [sizeofD]) (by simp),
    c4_padding_contract.2.2.2.2 [([112], .padding (.uint 1))] false false [0] [] []
      [112] (.uint 1) (by simp) ?_ (by simp)⟩
  simp [deserialize, deserializeFields, readN, sizeofD, pyDictInsert, pyDictDelete,
    pyEq, isPaddingD]

/-- C5: FixedArray serialization errors: a non-list input raises
`TypeError`, a list of the wrong length raises `ValueError`; in
particular `Array[U8,3]` refuses `[1,2,3,4]` with `ValueError` and the
string input with `TypeError`. -/
theorem c5_array_errors :
    (∀ d n v, (∀ xs, v ≠ .list xs) → serialize (.array d n) v = .error .typeError) ∧
    (∀ d n xs, xs.length ≠ n → serialize (.array d n) (.list xs) = .error .valueError) ∧
    encode (.array (.uint 1) 3) (.list [.int 1, .int 2, .int 3, .int 4]) =
      .error .valueError ∧
    encode (.array (.uint 1) 3) (.str [115, 116, 114]) = .error .typeError := by
  refine ⟨?_, ?_, ?_, ?_⟩
  · intro d n v hne
    cases v
    case list xs => exact absurd rfl (hne xs)
    all_goals rw [serialize] <;> simp
  · intro d n xs hlen
    rw [serialize, if_pos hlen]
  · rw [encode, serialize, if_pos (by decide)]
  · rw [encode, serialize] <;> simp

/-- C5 witness: the array error clauses applied at a non-list input and a
wrong-length list. -/
theorem c5_array_witness :
    serialize (.array (.uint 1) 3) (.int 0) = .error .typeError ∧
    serialize (.array (.uint 1) 3) (.list [.int 1]) = .error .valueError :=
  ⟨c5_array_errors.1 (.uint 1) 3 (.int 0) (fun xs h => by cases h),
   c5_array_errors.2.1 (.uint 1) 3 [.int 1] (by decide)⟩

/-- C6 (amended): Bool serialization accepts booleans and any value that
compares Python-`==` to 0 or 1 — which includes the floats 0.0 and 1.0 —
writing the single byte 0x00 or 0x01; every other value raises
`TypeError`.  (As stated the claim fails: the float 0.0 is neither a
boolean nor an integer, yet serializes: see the counterexample.) -/
theorem c6_bool_amended (v : PyVal) :
    ((pyIsBool v || pyEq v (.int 0) || pyEq v (.int 1)) = true →
      serialize .bool v = .ok (writeBool (boolArg v))) ∧
    ((pyIsBool v || pyEq v (.int 0) || pyEq v (.int 1)) = false →
      serialize .bool v = .error .typeError) ∧
    (∀ b, serialize .bool v = .ok b → b = [0] ∨ b = [1]) := by
  refine ⟨?_, ?_, ?_⟩
  · intro h
    rw [serialize, if_pos h]
  · intro h
    rw [serialize, if_neg (by simp [h])]
  · intro b hb
    rw [serialize] at hb
    split at hb
    · cases hb
      rw [writeBool]
      cases boolArg v <;> simp
    · cases hb

/-- C6 witness: the amended Bool clauses at `True` and at a string. -/
theorem c6_bool_witness :
    serialize .bool (.bool true) = .ok (writeBool (boolArg (.bool true))) ∧
    serialize .bool (.str [97]) = .error .typeError :=
  ⟨(c6_bool_amended (.bool true)).1 (by simp [pyIsBool]),
   (c6_bool_amended (.str [97])).2.1 (by simp [pyIsBool, pyEq])⟩

/-- C6 counterexample: the float `0.0` (IEEE-754 bit pattern 0) is neither
a boolean nor an integer, yet `Bool.serialize` accepts it and writes the
byte 0x00, because Python `0.0 == 0`. -/
theorem c6_counterexample :
    serialize .bool (.f64 0) = .ok [0] ∧
    pyIsBool (.f64 0) = false ∧
    (∀ z : Int, PyVal.f64 0 ≠ .int z) := by
  have h0 : pyEq (PyVal.f64 0) (.int 0) = true := by
    rw [pyEq]
    decide
  refine ⟨?_, rfl, fun z h => by cases h⟩
  rw [serialize, if_pos (by rw [h0]; simp)]
  rw [boolArg, h0, writeBool]
  rfl

/-- C7: the fixed-size laws of `sizeof`: FixedArray multiplies a fixed
inner size by the count (so `Array[U8,5]` is 5 bytes), Padding reports
the inner fixed size (so `Padding(Array[U8,10])` is 10 bytes), and
Vector, Map, Set, String, Bytes and Optional — even of a fixed-size inner
type — report unknown. -/
theorem c7_sizeof_laws :
    sizeofD (.array (.uint 1) 5) = some 5 ∧
    (∀ d n s, sizeofD d = some s → sizeofD (.array d n) = some (s * n)) ∧
    sizeofD (.padding (.array (.uint 1) 10)) = some 10 ∧
    (∀ d, sizeofD (.padding d) = sizeofD d) ∧
    (∀ d, sizeofD (.vector d) = Option.none) ∧
    (∀ kd vd, sizeofD (.map kd vd) = Option.none) ∧
    (∀ d, sizeofD (.set d) = Option.none) ∧
    sizeofD .string = Option.none ∧
    sizeofD .bytes = Option.none ∧
    (∀ d, sizeofD (.optional d) = Option.none) := by
  refine ⟨by simp [sizeofD], ?_, by simp [sizeofD], fun d => by rw [sizeofD],
    fun d => by rw [sizeofD], fun kd vd => by rw [sizeofD], fun d => by rw [sizeofD],
    by rw [sizeofD], by rw [sizeofD], fun d => by rw [sizeofD]⟩
  intro d n s h
  rw [sizeofD, h]

/-- C7 witness: the FixedArray law applied at `U16` and count 3. -/
theorem c7_sizeof_witness : sizeofD (.array (.uint 2) 3) = some 6 := by
  have h := c7_sizeof_laws.2.1 (.uint 2) 3 2 (by rw [sizeofD])
  simpa using h

/-- C8: calling a descriptor dispatches on the argument shapes: one
positional bytes argument decodes, keyword arguments encode the keyword
mapping (propagating its error), and both-or-neither raises `TypeError`. -/
theorem c8_call_dispatch :
    (∀ d bs, borshCall d [.bytes bs] [] = decode d bs) ∧
    (∀ d q kw bs, encode d (.dict ((q :: kw).map (fun p => (.str p.1, p.2)))) = .ok bs →
      borshCall d [] (q :: kw) = .ok (.bytes bs)) ∧
    (∀ d q kw e, encode d (.dict ((q :: kw).map (fun p => (.str p.1, p.2)))) = .error e →
      borshCall d [] (q :: kw) = .error e) ∧
    (∀ d a args q qs, borshCall d (a :: args) (q :: qs) = .error .typeError) ∧
    (∀ d, borshCall d [] [] = .error .typeError) := by
  refine ⟨?_, ?_, ?_, ?_, ?_⟩
  · intro d bs
    rw [borshCall]
  · intro d q kw bs h
    rw [borshCall, h]
    simp
  · intro d q kw e h
    rw [borshCall, h]
    simp
  · intro d a args q qs
    rw [borshCall]
  · intro d
    rw [borshCall]

/-- C8 witness: the dispatch clauses at concrete descriptors and
arguments. -/
theorem c8_call_witness :
    borshCall (.uint 1) [.bytes [7]] [] = decode (.uint 1) [7] ∧
    borshCall (.record [([97], .uint 1)] false false) [] [([97], .int 5)] =
      .ok (.bytes [5]) ∧
    borshCall (.uint 1) [.bytes [7]] [([97], .int 5)] = .error .typeError ∧
    borshCall (.uint 1) [] [] = .error .typeError := by
  refine ⟨c8_call_dispatch.1 (.uint 1) [7], ?_,
    c8_call_dispatch.2.2.2.1 (.uint 1) (.bytes [7]) [] ([97], .int 5) [],
    c8_call_dispatch.2.2.2.2 (.uint 1)⟩
  refine c8_call_dispatch.2.1 (.record [([97], .uint 1)] false false)
    ([97], .int 5) [] [5] ?_
  simp [encode, serialize, serializeFields, pyLookup, pyEq, leBytes]

/-- C9: decode never demands that the whole input be consumed: appending
any trailing bytes to an encoding leaves the decoded value unchanged,
because deserialization reads only the bytes the type requires. -/
theorem c9_trailing_ignored (d : Desc) (v : PyVal) (extra : List Nat)
    (hwf : wf d = true) (hval : validB d v = true) :
    ∃ bs, encode d v = .ok bs ∧
      decode d (bs ++ extra) = .ok (canon d v) ∧
      decode d (bs ++ extra) = decode d bs := by
  obtain ⟨bs, hs, hd⟩ := serOk_of_wf d hwf v hval
  have h1 : decode d (bs ++ extra) = .ok (canon d v) := by
    rw [decode, hd extra]
  have h2 : decode d bs = .ok (canon d v) := by
    rw [decode]
    have h0 := hd []
    rw [List.append_nil] at h0
    rw [h0]
  exact ⟨bs, hs, h1, by rw [h1, h2]⟩

/-- C9 witness: trailing bytes ignored at `U8` with value 5 and two extra
bytes. -/
theorem c9_trailing_witness :
    ∃ bs, encode (.uint 1) (.int 5) = .ok bs ∧
      decode (.uint 1) (bs ++ [9, 9]) = .ok (canon (.uint 1) (.int 5)) ∧
      decode (.uint 1) (bs ++ [9, 9]) = decode (.uint 1) bs :=
  c9_trailing_ignored (.uint 1) (.int 5) [9, 9] (by rw [wf] <;> simp)
    (by rw [validB]; decide)

/-- C10: the `exact_size` default differs by construction path: the
`schema` decorator defaults it on, so a record with any unknown-size
field reports unknown size, while direct `Schema()` construction defaults
it off, so the same shape reports the best-effort sum of the fixed-size
fields, skipping unknown ones. -/
theorem c10_exact_size_default :
    (∀ fields, (∃ p ∈ fields, sizeofD p.2 = Option.none) →
      sizeofD (schemaDecorator fields) = Option.none) ∧
    (∀ fields, sizeofD (schemaDirect fields) =
      some (fields.foldl (fun a p => a + (sizeofD p.2).getD 0) 0)) := by
  constructor
  · intro fields h
    rw [schemaDecorator, sizeofD]
    exact sizeofFields_exact_none fields 0 h
  · intro fields
    rw [schemaDirect, sizeofD]
    exact sizeofFields_skip fields 0

/-- C10 witness: a fixed 4-byte field next to a Vector field: the
decorator path reports unknown, the direct path reports 4. -/
theorem c10_exact_size_witness :
    sizeofD (schemaDecorator [([97], .uint 4), ([98], .vector (.uint 1))]) =
      Option.none ∧
    sizeofD (schemaDirect [([97], .uint 4), ([98], .vector (.uint 1))]) = some 4 := by
  constructor
  · exact c10_exact_size_default.1 _ ⟨([98], .vector (.uint 1)), by simp, by rw [sizeofD]⟩
  · have h := c10_exact_size_default.2 [([97], .uint 4), ([98], .vector (.uint 1))]
    rw [h]
    simp [sizeofD]
